import Mathlib

/-!
# Hard reset of the ciao launcher (`ciao-launcher/hard_reset.go`)

A shallow embedding of `dockerKillInstance`, `qemuKillInstance` and
`purgeLauncherState`.

The three functions do nothing but talk to the outside world, so the embedding
makes that world explicit:

* the filesystem is a tree (`Dir`); the code reads it with `ioutil.ReadFile`
  and `filepath.Walk` and changes it only through `os.RemoveAll`;
* every outcome the code cannot control (network steps, `loadVMConfig`, the
  QMP socket, the docker client, failing removals) is read from an `Env`;
* every externally visible step is recorded, in program order, as an `Event`;
  a run is the list of its events together with how it ended (`Run`).

Paths are lists of components; `path.Join dir name` is `dir ++ [name]`.
The globals `instancesDir`, `dataDir`, `lockDir` and `lockFile` are declared
outside `hard_reset.go` and are taken as a parameter (`Globals`).

What the model leaves out: nothing but `os.RemoveAll` changes the tree during
a run (no other process does), a directory can always be listed and its
entries always be examined by `Lstat`, and a removal that fails removes
nothing. Time is not measured: a read deadline is either set or not, and a
silent peer runs into it exactly when it is set.
-/

namespace Ciao

/-! ## Filesystem -/

/-- A path, as the list of its components below the filesystem root. -/
abbrev Path := List String

/-- The Go call `path.Join dir name` for a single component `name`. -/
def pathJoin (dir : Path) (name : String) : Path := dir ++ [name]

/-- The listing of a directory, in the order `filepath.Walk` enumerates it.
An entry is either a directory with its own listing or anything else (`file`);
`data` is what `ioutil.ReadFile` returns for it, `none` when it cannot be read
(a socket, a dangling link, no permission). -/
inductive Dir where
  | nil : Dir
  | file (name : String) (data : Option String) (rest : Dir) : Dir
  | dir (name : String) (sub : Dir) (rest : Dir) : Dir
  deriving DecidableEq, Repr

/-- What `os.Lstat` reports about an existing path. -/
inductive Stat where
  | file (data : Option String) : Stat
  | dir (sub : Dir) : Stat
  deriving DecidableEq, Repr

/-- The part of `os.FileInfo` the code looks at. -/
structure FileInfo where
  isDir : Bool
  deriving DecidableEq, Repr

/-- The names listed in a directory. -/
def Dir.names : Dir → List String
  | .nil => []
  | .file n _ rest => n :: rest.names
  | .dir n _ rest => n :: rest.names

/-- No directory lists the same name twice. -/
def Dir.wf : Dir → Bool
  | .nil => true
  | .file n _ rest => decide (n ∉ rest.names) && rest.wf
  | .dir n sub rest => decide (n ∉ rest.names) && sub.wf && rest.wf

/-- The entry called `x` in a listing. -/
def Dir.find : Dir → String → Option Stat
  | .nil, _ => none
  | .file n data rest, x => if n = x then some (.file data) else rest.find x
  | .dir n sub rest, x => if n = x then some (.dir sub) else rest.find x

/-- The Go call `os.Lstat`: `none` when the path does not exist. -/
def Dir.lookup : Dir → Path → Option Stat
  | d, [] => some (.dir d)
  | d, x :: xs =>
    match d.find x with
    | none => none
    | some (.file data) => if xs = [] then some (.file data) else none
    | some (.dir sub) => sub.lookup xs

/-- Drop every entry called `x` from a listing. -/
def Dir.erase : Dir → String → Dir
  | .nil, _ => .nil
  | .file n data rest, x => if n = x then rest.erase x else .file n data (rest.erase x)
  | .dir n sub rest, x => if n = x then rest.erase x else .dir n sub (rest.erase x)

/-- Apply `f` to the listing of the directories called `x`. -/
def Dir.update : Dir → String → (Dir → Dir) → Dir
  | .nil, _, _ => .nil
  | .file n data rest, x, f => .file n data (rest.update x f)
  | .dir n sub rest, x, f =>
    if n = x then .dir n (f sub) (rest.update x f) else .dir n sub (rest.update x f)

/-- The tree without the path `p` and everything below it. The filesystem root
itself (`[]`) cannot be removed. -/
def Dir.remove : Dir → Path → Dir
  | d, [] => d
  | d, [x] => d.erase x
  | d, x :: y :: ys => d.update x (fun sub => sub.remove (y :: ys))

/-- The Go call `ioutil.ReadFile`. -/
def readFile (fs : Dir) (p : Path) : Option String :=
  match fs.lookup p with
  | some (.file (some data)) => some data
  | _ => none

/-- The directories strictly below a directory at `p`, in the order the walk
meets them (each directory before its own content). -/
def Dir.subdirs : Dir → Path → List Path
  | .nil, _ => []
  | .file _ _ rest, p => rest.subdirs p
  | .dir n sub rest, p => pathJoin p n :: (sub.subdirs (pathJoin p n) ++ rest.subdirs p)

/-! ## Events and runs -/

/-- A request to the container runtime. `containerStop` is the graceful stop of
the docker API; `hard_reset.go` never issues it. -/
inductive DockerCall where
  | containerRemove (containerID : String) (force : Bool) : DockerCall
  | containerStop (containerID : String) : DockerCall
  deriving DecidableEq, Repr

/-- The two terminators. -/
inductive Terminator where
  | docker : Terminator
  | qemu : Terminator
  deriving DecidableEq, Repr

/-- How the loop `for scanner.Scan() {}` came to its end. -/
inductive ScanStop where
  | eof : ScanStop
  | deadline : ScanStop
  | tooLong : ScanStop
  deriving DecidableEq, Repr

/-- The externally visible steps of a hard reset, `ok` being the outcome. -/
inductive Event where
  | netConfigLoad (ok : Bool) : Event
  | initNetworkPhase1 (ok : Bool) : Event
  | initDockerNetworking (ok : Bool) : Event
  | loadVMConfig (dir : Path) (ok : Bool) : Event
  | call (t : Terminator) (dir : Path) : Event
  | readFile (p : Path) (ok : Bool) : Event
  | getDockerClient (ok : Bool) : Event
  | docker (c : DockerCall) (ok : Bool) : Event
  | dial (sock : Path) (seconds : Nat) (ok : Bool) : Event
  | write (sock : Path) (bytes : String) (ok : Bool) : Event
  | setReadDeadline (sock : Path) (seconds : Nat) (ok : Bool) : Event
  | scan (sock : Path) (stop : ScanStop) : Event
  | close (sock : Path) : Event
  | enqueue (dir : Path) : Event
  | removeAll (p : Path) (ok : Bool) : Event
  | shutdownDockerNetwork : Event
  | resetDockerNetworking : Event
  | resetNetwork (ok : Bool) : Event
  deriving DecidableEq, Repr

abbrev Trace := List Event

/-- How a computation ends: it returns, it waits forever on a read, or it
dereferences a nil `os.FileInfo`. -/
inductive Outcome (α : Type) where
  | returned (a : α) : Outcome α
  | blocked : Outcome α
  | panicked : Outcome α
  deriving DecidableEq, Repr

/-- A run: the events in program order and the outcome. -/
structure Run (α : Type) where
  trace : Trace
  out : Outcome α
  deriving DecidableEq, Repr

/-- Sequencing: what follows runs only when the first part returned. -/
def Run.bind {α β : Type} (r : Run α) (f : α → Run β) : Run β :=
  match r.out with
  | .returned a => ⟨r.trace ++ (f a).trace, (f a).out⟩
  | .blocked => ⟨r.trace, .blocked⟩
  | .panicked => ⟨r.trace, .panicked⟩

instance : Monad Run where
  pure a := ⟨[], .returned a⟩
  bind := Run.bind

/-- One step that returns. -/
def emit (e : Event) : Run Unit := ⟨[e], .returned ()⟩

/-- A Go `defer`: `e` happens when the body returns or panics. -/
def Run.deferring {α : Type} (e : Event) (body : Run α) : Run α :=
  match body.out with
  | .blocked => body
  | _ => ⟨body.trace ++ [e], body.out⟩

/-! ## The environment -/

/-- What the peer of a connection does once both commands are written. -/
inductive Ending where
  /-- The peer closes the stream: a read reports end-of-stream. -/
  | closed : Ending
  /-- The peer keeps the stream open for longer than any deadline. -/
  | silent : Ending
  deriving DecidableEq, Repr

/-- An established connection to a QMP socket: the outcome of the two writes
and of `SetReadDeadline`, the bytes the peer sends before the reads end, and
how they end. -/
structure Conn where
  capWriteOk : Bool
  quitWriteOk : Bool
  deadlineOk : Bool
  incoming : List Nat
  ending : Ending
  deriving DecidableEq, Repr

/-- The part of the instance configuration the reset looks at. -/
structure VMConfig where
  container : Bool
  deriving DecidableEq, Repr

/-- Everything the code cannot control. -/
structure Env where
  netConfigLoadOk : Bool
  initNetworkPhase1Ok : Bool
  initDockerNetworkingOk : Bool
  loadVMConfig : Path → Option VMConfig
  dial : Path → Option Conn
  getDockerClientOk : Bool
  containerRemoveOk : String → Bool
  resetNetworkOk : Bool
  removeAllFails : Path → Bool

/-- The package-level variables the reset reads. -/
structure Globals where
  instancesDir : Path
  dataDir : Path
  lockDir : Path
  lockFile : String

/-- The path of the lock file (line 175). -/
def Globals.lockPath (g : Globals) : Path := pathJoin g.lockDir g.lockFile

/-! ## `dockerKillInstance` -/

/-- `dockerKillInstance` (hard_reset.go, lines 35-56). -/
def dockerKillInstance (env : Env) (fs : Dir) (instanceDir : Path) : Run Unit :=
  let idPath := pathJoin instanceDir "docker-id"
  match readFile fs idPath with
  | none => emit (.readFile idPath false)
  | some data => do
    emit (.readFile idPath true)
    emit (.getDockerClient env.getDockerClientOk)
    if env.getDockerClientOk then
      emit (.docker (.containerRemove data true) (env.containerRemoveOk data))
    else
      pure ()

/-! ## `qemuKillInstance` -/

/-- The first command, as the string literal of line 69. -/
def qmpCapabilities : String := "\x7b \"execute\": \"qmp_capabilities\" \x7d"

/-- The second command, as the string literal of line 77. -/
def qmpQuit : String := "\x7b \"execute\": \"quit\" \x7d"

/-- What `fmt.Fprintln conn s` writes. -/
def fprintln (s : String) : String := s ++ "\n"

/-- The constant `bufio.MaxScanTokenSize`. -/
def maxScanTokenSize : Nat := 64 * 1024

/-- A `bufio.Scanner` with the default line splitting, reading `data` while
`pending` bytes of an unfinished line sit in its buffer: `true` when it gets
through all of `data`, `false` when a line fills the buffer before its newline
(byte 10) arrives and `Scan` gives up with `ErrTooLong`. -/
def scanLines : Nat → List Nat → Bool
  | _, [] => true
  | pending, b :: rest =>
    if b = 10 then scanLines 0 rest
    else if maxScanTokenSize ≤ pending + 1 then false
    else scanLines (pending + 1) rest

/-- The loop `for scanner.Scan() {}` (lines 91-93). Without a deadline and
with a peer that never closes, it does not end. -/
def drain (conn : Conn) : Outcome ScanStop :=
  if scanLines 0 conn.incoming then
    match conn.ending with
    | .closed => .returned .eof
    | .silent => if conn.deadlineOk then .returned .deadline else .blocked
  else
    .returned .tooLong

/-- `qemuKillInstance` (hard_reset.go, lines 58-96). -/
def qemuKillInstance (env : Env) (instanceDir : Path) : Run Unit :=
  let qmpSocket := pathJoin instanceDir "socket"
  match env.dial qmpSocket with
  | none => emit (.dial qmpSocket 30 false)
  | some conn => do
    emit (.dial qmpSocket 30 true)
    Run.deferring (.close qmpSocket) (do
      emit (.write qmpSocket (fprintln qmpCapabilities) conn.capWriteOk)
      if conn.capWriteOk then do
        emit (.write qmpSocket (fprintln qmpQuit) conn.quitWriteOk)
        if conn.quitWriteOk then do
          emit (.setReadDeadline qmpSocket 60 conn.deadlineOk)
          let stop ← (⟨[], drain conn⟩ : Run ScanStop)
          emit (.scan qmpSocket stop)
        else
          pure ()
      else
        pure ())

/-! ## `purgeLauncherState` -/

/-- The body of the walk function for a directory other than the root
(lines 129-139): load the configuration, dispatch, enqueue. -/
def visit (env : Env) (fs : Dir) (path : Path) : Run Unit := do
  match env.loadVMConfig path with
  | none => emit (.loadVMConfig path false)
  | some cfg => do
    emit (.loadVMConfig path true)
    if cfg.container then do
      emit (.call .docker path)
      dockerKillInstance env fs path
    else do
      emit (.call .qemu path)
      qemuKillInstance env path
  emit (.enqueue path)

/-- The function literal passed to `filepath.Walk` (lines 120-141); `info` is
`none` for the nil `os.FileInfo` that `Walk` passes when `Lstat` failed. The
list is `toRemove`. -/
def walkFn (env : Env) (g : Globals) (fs : Dir) (path : Path) (info : Option FileInfo)
    (toRemove : List Path) : Run (List Path) :=
  if path = g.instancesDir then pure toRemove
  else
    match info with
    | none => ⟨[], .panicked⟩
    | some i =>
      if !i.isDir then pure toRemove
      else do
        visit env fs path
        pure (toRemove ++ [path])

/-- The loop of `filepath.walk` over the listing `d` of the directory at `p`,
for a walk function that always returns nil. -/
def Dir.walk {σ : Type} (fn : Path → Option FileInfo → σ → Run σ) : Dir → Path → σ → Run σ
  | .nil, _, s => pure s
  | .file n _ rest, p, s => do
    let s ← fn (pathJoin p n) (some ⟨false⟩) s
    rest.walk fn p s
  | .dir n sub rest, p, s => do
    let s ← fn (pathJoin p n) (some ⟨true⟩) s
    let s ← sub.walk fn (pathJoin p n) s
    rest.walk fn p s

/-- The Go call `filepath.Walk root fn`, for a walk function that always
returns nil. -/
def filepathWalk {σ : Type} (fs : Dir) (root : Path)
    (fn : Path → Option FileInfo → σ → Run σ) (s : σ) : Run σ :=
  match fs.lookup root with
  | none => fn root none s
  | some (.file _) => fn root (some ⟨false⟩) s
  | some (.dir d) => do
    let s ← fn root (some ⟨true⟩) s
    d.walk fn root s

/-- The Go call `os.RemoveAll`: a path that does not exist is no error; a
failing removal is taken to leave the tree as it was. -/
def removeAll (env : Env) (fs : Dir) (p : Path) : Run Dir :=
  match fs.lookup p with
  | none => ⟨[.removeAll p true], .returned fs⟩
  | some _ =>
    if p = [] ∨ env.removeAllFails p = true then ⟨[.removeAll p false], .returned fs⟩
    else ⟨[.removeAll p true], .returned (fs.remove p)⟩

/-- The loop over `toRemove` (lines 143-148). -/
def removeInstances (env : Env) : List Path → Dir → Run Dir
  | [], fs => pure fs
  | p :: ps, fs => do
    let fs ← removeAll env fs p
    removeInstances env ps fs

/-- Lines 106-118: the network steps before the walk. -/
def initNetworking (env : Env) : Run Unit := do
  emit (.netConfigLoad env.netConfigLoadOk)
  emit (.initNetworkPhase1 env.initNetworkPhase1Ok)
  if env.initNetworkPhase1Ok then
    emit (.initDockerNetworking env.initDockerNetworkingOk)
  else
    pure ()

/-- Lines 120-141: the walk over the instance root, returning `toRemove`. -/
def walkInstances (env : Env) (g : Globals) (fs : Dir) : Run (List Path) :=
  filepathWalk fs g.instancesDir (walkFn env g fs) []

/-- Lines 157-165: the network steps after the removal of the instances. -/
def resetNetworking (env : Env) : Run Unit := do
  emit .shutdownDockerNetwork
  emit .resetDockerNetworking
  emit (.resetNetwork env.resetNetworkOk)

/-- Lines 167-178: the removal of the data directory, the instance root and
the lock file. -/
def purgeFilesystem (env : Env) (g : Globals) (fs : Dir) : Run Dir := do
  let fs ← removeAll env fs g.dataDir
  let fs ← removeAll env fs g.instancesDir
  removeAll env fs g.lockPath

/-- Lines 98-165: everything before the final purge; returns the tree as it
is once the instances are removed and the network is reset. -/
def shutdownInstances (env : Env) (g : Globals) (fs : Dir) : Run Dir := do
  initNetworking env
  let toRemove ← walkInstances env g fs
  let fs ← removeInstances env toRemove fs
  resetNetworking env
  pure fs

/-- `purgeLauncherState` (hard_reset.go, lines 98-179); returns the tree it
leaves behind. -/
def purgeLauncherState (env : Env) (g : Globals) (fs : Dir) : Run Dir := do
  let fs ← shutdownInstances env g fs
  purgeFilesystem env g fs

/-! ## The visits of a walk -/

/-- The visits of the directories of a list, one after the other. -/
def visitAll (env : Env) (fs : Dir) : List Path → Run Unit
  | [] => pure ()
  | q :: qs => do
    visit env fs q
    visitAll env fs qs
/-- The directories the walk visits: those strictly below the instance root,
none when the root is absent or is not a directory. -/
def instanceDirs (g : Globals) (fs : Dir) : List Path :=
  match fs.lookup g.instancesDir with
  | some (.dir d) => d.subdirs g.instancesDir
  | _ => []

/-! ## Reading a trace -/

/-- The instance directory an event treats as an instance: the one whose
configuration is loaded, that is handed to a terminator, or that is added to
`toRemove`. -/
def Event.treated : Event → Option Path
  | .loadVMConfig dir _ => some dir
  | .call _ dir => some dir
  | .enqueue dir => some dir
  | _ => none

/-- The terminator invocations of a trace, in order. -/
def calls : Trace → List (Terminator × Path)
  | [] => []
  | .call t dir :: rest => (t, dir) :: calls rest
  | _ :: rest => calls rest

/-- The directories added to `toRemove`, in order. -/
def enqueued : Trace → List Path
  | [] => []
  | .enqueue dir :: rest => dir :: enqueued rest
  | _ :: rest => enqueued rest

/-- The requests sent to the container runtime, in order. -/
def dockerCalls : Trace → List DockerCall
  | [] => []
  | .docker c _ :: rest => c :: dockerCalls rest
  | _ :: rest => dockerCalls rest

/-- The bytes handed to a connection, one item per write. -/
def writes : Trace → List String
  | [] => []
  | .write _ bytes _ :: rest => bytes :: writes rest
  | _ :: rest => writes rest

/-- Whether an event is one of the network steps of the reset. -/
def Event.isNetwork : Event → Bool
  | .netConfigLoad _ => true
  | .initNetworkPhase1 _ => true
  | .initDockerNetworking _ => true
  | .shutdownDockerNetwork => true
  | .resetDockerNetworking => true
  | .resetNetwork _ => true
  | _ => false

/-- Whether every write of the `quit` line comes after a successful write of
the `qmp_capabilities` line; `seen` tells whether the latter was already met. -/
def capBeforeQuit (seen : Bool) : Trace → Bool
  | [] => true
  | .write _ bytes ok :: rest =>
    if bytes = fprintln qmpQuit then seen && capBeforeQuit seen rest
    else if bytes = fprintln qmpCapabilities then capBeforeQuit (seen || ok) rest
    else capBeforeQuit seen rest
  | _ :: rest => capBeforeQuit seen rest

/-- Whether every `close` comes after a read that reported end-of-stream or
the expiry of the deadline; `seen` tells whether such a read was already met. -/
def closesAfterDrain (seen : Bool) : Trace → Bool
  | [] => true
  | .scan _ .eof :: rest => closesAfterDrain true rest
  | .scan _ .deadline :: rest => closesAfterDrain true rest
  | .close _ :: rest => seen && closesAfterDrain seen rest
  | _ :: rest => closesAfterDrain seen rest

/-- The lengths of the lines of `data`: the runs of bytes between newlines
(byte 10), the last item being the unfinished line at the end. -/
def lineLengths : List Nat → List Nat
  | [] => [0]
  | b :: rest =>
    if b = 10 then 0 :: lineLengths rest
    else
      match lineLengths rest with
      | [] => [1]
      | n :: ns => (n + 1) :: ns

/-- Wherever the read deadline cannot be set, the peer closes the stream: no
drain loop waits forever. -/
def Env.drainsEnd (env : Env) : Prop :=
  ∀ sock conn, env.dial sock = some conn → conn.deadlineOk = true ∨ conn.ending = Ending.closed

/-- The removal of `p` does not fail: `p` is not the filesystem root and the
environment lets `os.RemoveAll` succeed on it. -/
def Env.removable (env : Env) (p : Path) : Prop :=
  p ≠ [] ∧ env.removeAllFails p = false

/-! ## A concrete node -/

/-- The layout used in the examples. -/
def g0 : Globals := ⟨["instances"], ["data"], ["lock"], "ciao-launcher.lock"⟩

/-- A monitor that answers and then closes the stream. -/
def conn0 : Conn := ⟨true, true, true, [123, 125, 10], .closed⟩

/-- A monitor that accepts the connection but not the first write. -/
def connRefusing : Conn := ⟨false, true, true, [], .silent⟩

/-- An environment in which every step succeeds: `vm1` is a VM, `ctr1` a
container, no other directory has a configuration. -/
def env0 : Env where
  netConfigLoadOk := true
  initNetworkPhase1Ok := true
  initDockerNetworkingOk := true
  loadVMConfig := fun p =>
    if p = ["instances", "vm1"] then some ⟨false⟩
    else if p = ["instances", "ctr1"] then some ⟨true⟩
    else none
  dial := fun _ => some conn0
  getDockerClientOk := true
  containerRemoveOk := fun _ => true
  resetNetworkOk := true
  removeAllFails := fun _ => false

/-- An environment in which every step that can fail does: the network steps,
the load of the configuration of `vm1`, every dial, the docker client. Only
the removals go through. -/
def envDegraded : Env where
  netConfigLoadOk := false
  initNetworkPhase1Ok := false
  initDockerNetworkingOk := false
  loadVMConfig := fun p =>
    if p = ["instances", "ctr1"] then some ⟨true⟩
    else if p = ["instances", "vm1", "sub"] then some ⟨false⟩
    else none
  dial := fun _ => none
  getDockerClientOk := false
  containerRemoveOk := fun _ => false
  resetNetworkOk := false
  removeAllFails := fun _ => false

/-- As `env0`, with monitors that refuse the first write. -/
def envRefusing : Env := { env0 with dial := fun _ => some connRefusing }

/-- A node with a container, a VM whose directory holds a subdirectory, and a
stray file under the instance root. -/
def fs0 : Dir :=
  .dir "instances"
    (.file "README" (some "notes")
      (.dir "ctr1" (.file "docker-id" (some "abc123") .nil)
        (.dir "vm1" (.file "socket" none (.dir "sub" .nil .nil)) .nil)))
    (.dir "data" .nil
      (.dir "lock" (.file "ciao-launcher.lock" (some "") .nil) .nil))

/-! ## Facts about the filesystem -/

theorem find_erase (d : Dir) (x z : String) :
    (d.erase x).find z = if z = x then none else d.find z := by
  induction d with
  | nil => simp [Dir.erase, Dir.find]
  | file n data rest ih =>
    by_cases hz : z = x
    · subst hz
      by_cases hn : n = z
      · simpa [Dir.erase, hn] using ih
      · simpa [Dir.erase, Dir.find, hn] using ih
    · by_cases hn : n = x
      · have : ¬ x = z := fun h => hz h.symm
        simp [Dir.erase, Dir.find, hn, ih, hz, this]
      · simp [Dir.erase, Dir.find, hn, ih, hz]
  | dir n sub rest _ ih =>
    by_cases hz : z = x
    · subst hz
      by_cases hn : n = z
      · simpa [Dir.erase, hn] using ih
      · simpa [Dir.erase, Dir.find, hn] using ih
    · by_cases hn : n = x
      · have : ¬ x = z := fun h => hz h.symm
        simp [Dir.erase, Dir.find, hn, ih, hz, this]
      · simp [Dir.erase, Dir.find, hn, ih, hz]

theorem find_update_ne (d : Dir) (x z : String) (f : Dir → Dir) (h : z ≠ x) :
    (d.update x f).find z = d.find z := by
  induction d with
  | nil => simp [Dir.update, Dir.find]
  | file n data rest ih => simp [Dir.update, Dir.find, ih]
  | dir n sub rest _ ih =>
    by_cases hn : n = x
    · have : ¬ x = z := fun e => h e.symm
      simp [Dir.update, Dir.find, hn, ih, this]
    · simp [Dir.update, Dir.find, hn, ih]

theorem find_update_self (d : Dir) (x : String) (f : Dir → Dir) :
    (d.update x f).find x =
      match d.find x with
      | none => none
      | some (.file data) => some (.file data)
      | some (.dir sub) => some (.dir (f sub)) := by
  induction d with
  | nil => simp [Dir.update, Dir.find]
  | file n data rest ih =>
    by_cases hn : n = x
    · simp [Dir.update, Dir.find, hn]
    · simp [Dir.update, Dir.find, hn, ih]
  | dir n sub rest _ ih =>
    by_cases hn : n = x
    · simp [Dir.update, Dir.find, hn]
    · simp [Dir.update, Dir.find, hn, ih]

/-- A removed path is gone. -/
theorem lookup_remove_self (p : Path) (hp : p ≠ []) (d : Dir) :
    (d.remove p).lookup p = none := by
  induction p generalizing d with
  | nil => exact absurd rfl hp
  | cons x xs ih =>
    cases xs with
    | nil => simp [Dir.remove, Dir.lookup, find_erase]
    | cons y ys =>
      simp only [Dir.remove, Dir.lookup, find_update_self]
      cases hfx : d.find x with
      | none => simp
      | some st =>
        cases st with
        | file data => simp
        | dir sub => simpa using ih (by simp) sub

/-- A removal creates nothing. -/
theorem lookup_remove_of_none (q : Path) (d : Dir) (p : Path) (h : d.lookup q = none) :
    (d.remove p).lookup q = none := by
  induction q generalizing d p with
  | nil => simp [Dir.lookup] at h
  | cons z zs ih =>
    match p with
    | [] => simpa [Dir.remove] using h
    | [x] =>
      simp only [Dir.remove, Dir.lookup, find_erase]
      by_cases hz : z = x
      · simp [hz]
      · simpa [hz, Dir.lookup] using h
    | x :: y :: ys =>
      by_cases hz : z = x
      · subst hz
        simp only [Dir.remove, Dir.lookup, find_update_self]
        simp only [Dir.lookup] at h
        cases hfx : d.find z with
        | none => simp
        | some st =>
          cases st with
          | file data => simpa [hfx] using h
          | dir sub =>
            simp only [hfx] at h
            simpa using ih sub (y :: ys) h
      · simpa [Dir.remove, Dir.lookup, find_update_ne _ _ _ _ hz] using h

/-- A removal leaves a file alone unless it removes the file or a directory
above it. -/
theorem lookup_remove_file (q : Path) (d : Dir) (p : Path) (data : Option String)
    (h : d.lookup q = some (.file data)) (hpq : ¬ p <+: q) :
    (d.remove p).lookup q = some (.file data) := by
  induction q generalizing d p with
  | nil => simp [Dir.lookup] at h
  | cons z zs ih =>
    match p with
    | [] => simpa [Dir.remove] using h
    | [x] =>
      have hz : z ≠ x := by
        intro e
        apply hpq
        subst e
        exact ⟨zs, rfl⟩
      simpa [Dir.remove, Dir.lookup, find_erase, hz] using h
    | x :: y :: ys =>
      by_cases hz : z = x
      · subst hz
        simp only [Dir.remove, Dir.lookup, find_update_self]
        simp only [Dir.lookup] at h
        cases hfx : d.find z with
        | none => simp [hfx] at h
        | some st =>
          cases st with
          | file data1 => simpa [hfx] using h
          | dir sub =>
            simp only [hfx] at h
            have hsub : ¬ (y :: ys) <+: zs := by
              intro hpre
              apply hpq
              obtain ⟨t, ht⟩ := hpre
              exact ⟨t, by simp [← ht]⟩
            simpa using ih sub (y :: ys) h hsub
      · simpa [Dir.remove, Dir.lookup, find_update_ne _ _ _ _ hz] using h

/-- The content of a directory is found by looking further down. -/
theorem lookup_append (root r : Path) (fs d : Dir) (h : fs.lookup root = some (.dir d)) :
    fs.lookup (root ++ r) = d.lookup r := by
  induction root generalizing fs with
  | nil =>
    simp [Dir.lookup] at h
    simp [h]
  | cons x xs ih =>
    simp only [Dir.lookup, List.cons_append] at h ⊢
    cases hfx : fs.find x with
    | none => simp [hfx] at h
    | some st =>
      cases st with
      | file data =>
        simp only [hfx] at h
        split at h <;> simp at h
      | dir sub =>
        simp only [hfx] at h
        simpa using ih sub h

/-- Nothing lies below a path that is absent or is not a directory. -/
theorem lookup_append_none (root r : Path) (fs : Dir) (hr : r ≠ [])
    (h : ∀ d, fs.lookup root ≠ some (.dir d)) : fs.lookup (root ++ r) = none := by
  induction root generalizing fs with
  | nil => exact absurd rfl (h fs)
  | cons x xs ih =>
    simp only [Dir.lookup, List.cons_append] at h ⊢
    cases hfx : fs.find x with
    | none => simp
    | some st =>
      cases st with
      | file data => simp [hr]
      | dir sub =>
        simp only [hfx] at h
        simpa using ih sub h

/-! ## Facts about runs -/

theorem bind_eq {α β : Type} (r : Run α) (f : α → Run β) : (r >>= f) = Run.bind r f := rfl

theorem pure_eq {α : Type} (a : α) : (pure a : Run α) = ⟨[], .returned a⟩ := rfl

theorem Run.pure_bind {α β : Type} (a : α) (f : α → Run β) :
    Run.bind ⟨[], .returned a⟩ f = f a := by
  simp [Run.bind]

theorem Run.bind_pure {α : Type} (r : Run α) :
    Run.bind r (fun a => ⟨[], .returned a⟩) = r := by
  obtain ⟨t, o⟩ := r
  cases o <;> simp [Run.bind]

theorem Run.bind_assoc {α β γ : Type} (r : Run α) (f : α → Run β) (k : β → Run γ) :
    Run.bind (Run.bind r f) k = Run.bind r (fun a => Run.bind (f a) k) := by
  obtain ⟨t, o⟩ := r
  cases o with
  | returned a =>
    simp only [Run.bind]
    cases (f a).out <;> simp
  | blocked => simp [Run.bind]
  | panicked => simp [Run.bind]

theorem Run.bind_returned {α β : Type} (r : Run α) (f : α → Run β) (a : α)
    (h : r.out = .returned a) : Run.bind r f = ⟨r.trace ++ (f a).trace, (f a).out⟩ := by
  simp [Run.bind, h]

theorem Run.trace_bind_subset {α β : Type} (r : Run α) (f : α → Run β) (e : Event)
    (h : e ∈ (Run.bind r f).trace) : e ∈ r.trace ∨ ∃ a, r.out = .returned a ∧ e ∈ (f a).trace := by
  obtain ⟨t, o⟩ := r
  cases o with
  | returned a =>
    simp only [Run.bind, List.mem_append] at h
    rcases h with h | h
    · exact Or.inl h
    · exact Or.inr ⟨a, rfl, h⟩
  | blocked => exact Or.inl (by simpa [Run.bind] using h)
  | panicked => exact Or.inl (by simpa [Run.bind] using h)

/-! ## Facts about the walk -/

theorem pathJoin_ne (root r : Path) (n : String) : pathJoin (root ++ r) n ≠ root := by
  intro h
  have := congrArg List.length h
  simp [pathJoin] at this

theorem walkFn_file (env : Env) (g : Globals) (fs : Dir) (path : Path) (acc : List Path)
    (h : path ≠ g.instancesDir) : walkFn env g fs path (some ⟨false⟩) acc = pure acc := by
  simp [walkFn, h]

theorem walkFn_dir (env : Env) (g : Globals) (fs : Dir) (path : Path) (acc : List Path)
    (h : path ≠ g.instancesDir) :
    walkFn env g fs path (some ⟨true⟩) acc =
      Run.bind (visit env fs path) (fun _ => ⟨[], .returned (acc ++ [path])⟩) := by
  simp [walkFn, h, bind_eq, pure_eq]

theorem visitAll_append (env : Env) (fs : Dir) (l1 l2 : List Path) :
    visitAll env fs (l1 ++ l2) =
      Run.bind (visitAll env fs l1) (fun _ => visitAll env fs l2) := by
  induction l1 with
  | nil => simp [visitAll, pure_eq, Run.pure_bind]
  | cons q qs ih => simp [visitAll, bind_eq, ih, Run.bind_assoc]

/-- The walk below the instance root visits the directories of `subdirs`, in
order, and returns them appended to the list it was given. -/
theorem walk_walkFn (env : Env) (g : Globals) (fs : Dir) (d : Dir) (r : Path)
    (acc : List Path) :
    d.walk (walkFn env g fs) (g.instancesDir ++ r) acc =
      Run.bind (visitAll env fs (d.subdirs (g.instancesDir ++ r)))
        (fun _ => ⟨[], .returned (acc ++ d.subdirs (g.instancesDir ++ r))⟩) := by
  induction d generalizing r acc with
  | nil => simp [Dir.walk, Dir.subdirs, visitAll, pure_eq, Run.pure_bind]
  | file n data rest ih =>
    simp [Dir.walk, Dir.subdirs, walkFn_file _ _ _ _ _ (pathJoin_ne _ r n), bind_eq, pure_eq,
      Run.pure_bind, ih]
  | dir n sub rest ihs ihr =>
    have hne : g.instancesDir ++ (r ++ [n]) ≠ g.instancesDir := by
      simp
    have hsub := ihs (r ++ [n])
    simp only [Dir.walk, Dir.subdirs, bind_eq, pathJoin, List.append_assoc,
      walkFn_dir _ _ _ _ _ hne, visitAll, visitAll_append, Run.bind_assoc, Run.pure_bind,
      hsub, ihr]
    simp [List.append_assoc]

/-! ## Facts about the directories below a path -/

theorem find_none_of_not_mem (d : Dir) (x : String) (h : x ∉ d.names) : d.find x = none := by
  induction d with
  | nil => rfl
  | file n data rest ih =>
    simp only [Dir.names, List.mem_cons, not_or] at h
    have : ¬ n = x := fun e => h.1 e.symm
    simp [Dir.find, this, ih h.2]
  | dir n sub rest _ ih =>
    simp only [Dir.names, List.mem_cons, not_or] at h
    have : ¬ n = x := fun e => h.1 e.symm
    simp [Dir.find, this, ih h.2]

theorem wf_of_find (d : Dir) (x : String) (sub : Dir) (hwf : d.wf = true)
    (h : d.find x = some (.dir sub)) : sub.wf = true := by
  induction d with
  | nil => simp [Dir.find] at h
  | file n data rest ih =>
    simp only [Dir.wf, Bool.and_eq_true] at hwf
    by_cases hn : n = x
    · simp [Dir.find, hn] at h
    · simp only [Dir.find, hn, if_false] at h
      exact ih hwf.2 h
  | dir n s rest _ ih =>
    simp only [Dir.wf, Bool.and_eq_true] at hwf
    by_cases hn : n = x
    · simp only [Dir.find, hn, if_true, Option.some.injEq, Stat.dir.injEq] at h
      exact h ▸ hwf.1.2
    · simp only [Dir.find, hn, if_false] at h
      exact ih hwf.2 h

theorem wf_of_lookup (root : Path) (fs d : Dir) (hwf : fs.wf = true)
    (h : fs.lookup root = some (.dir d)) : d.wf = true := by
  induction root generalizing fs with
  | nil =>
    simp [Dir.lookup] at h
    exact h ▸ hwf
  | cons x xs ih =>
    simp only [Dir.lookup] at h
    cases hfx : fs.find x with
    | none => simp [hfx] at h
    | some st =>
      cases st with
      | file data =>
        simp only [hfx] at h
        split at h <;> simp at h
      | dir sub =>
        simp only [hfx] at h
        exact ih sub (wf_of_find fs x sub hwf hfx) h

/-- A directory met by the walk lies below the starting point, under one of
the names listed there. -/
theorem mem_subdirs_head (d : Dir) (p q : Path) (h : q ∈ d.subdirs p) :
    ∃ x xs, q = p ++ x :: xs ∧ x ∈ d.names := by
  induction d generalizing p q with
  | nil => simp [Dir.subdirs] at h
  | file n data rest ih =>
    obtain ⟨x, xs, hq, hx⟩ := ih p q h
    exact ⟨x, xs, hq, by simp [Dir.names, hx]⟩
  | dir n sub rest ihs ihr =>
    simp only [Dir.subdirs, List.mem_cons, List.mem_append] at h
    rcases h with h | h | h
    · exact ⟨n, [], by simp [h, pathJoin], by simp [Dir.names]⟩
    · obtain ⟨x, xs, hq, _⟩ := ihs _ q h
      exact ⟨n, x :: xs, by simp [hq, pathJoin], by simp [Dir.names]⟩
    · obtain ⟨x, xs, hq, hx⟩ := ihr p q h
      exact ⟨x, xs, hq, by simp [Dir.names, hx]⟩

/-- In a tree without duplicate names, the walk meets exactly the directories
strictly below its starting point. -/
theorem mem_subdirs_iff (d : Dir) (hwf : d.wf = true) (p : Path) (r : Path) :
    p ++ r ∈ d.subdirs p ↔ r ≠ [] ∧ ∃ s, d.lookup r = some (.dir s) := by
  induction d generalizing p r with
  | nil =>
    cases r with
    | nil => simp [Dir.subdirs]
    | cons x xs => simp [Dir.subdirs, Dir.lookup, Dir.find]
  | file n data rest ih =>
    simp only [Dir.wf, Bool.and_eq_true, decide_eq_true_eq] at hwf
    rw [Dir.subdirs, ih hwf.2]
    cases r with
    | nil => simp
    | cons x xs =>
      by_cases hn : n = x
      · subst hn
        have hnone := find_none_of_not_mem rest n hwf.1
        simp only [Dir.lookup, Dir.find, hnone, if_true]
        constructor
        · intro h
          simp at h
        · rintro ⟨_, s, hs⟩
          split at hs <;> simp at hs
      · simp [Dir.lookup, Dir.find, hn]
  | dir n sub rest ihs ihr =>
    simp only [Dir.wf, Bool.and_eq_true, decide_eq_true_eq] at hwf
    cases r with
    | nil =>
      simp only [ne_eq, not_true_eq_false, false_and, iff_false, List.append_nil]
      intro h
      obtain ⟨x, xs, hq, _⟩ := mem_subdirs_head _ p p h
      have := congrArg List.length hq
      simp at this
    | cons x xs =>
      simp only [Dir.subdirs, List.mem_cons, List.mem_append, pathJoin]
      by_cases hn : n = x
      · subst hn
        have hrest : p ++ n :: xs ∉ rest.subdirs p := by
          intro h
          obtain ⟨y, ys, hq, hy⟩ := mem_subdirs_head _ p _ h
          have := List.append_cancel_left hq
          simp only [List.cons.injEq] at this
          exact hwf.1.1 (this.1 ▸ hy)
        have hsub := ihs hwf.1.2 (p ++ [n]) xs
        simp only [List.append_assoc, List.singleton_append] at hsub
        simp only [hrest, or_false, hsub, Dir.lookup, Dir.find, if_true]
        cases xs with
        | nil => simp [Dir.lookup]
        | cons y ys => simp
      · have h1 : ¬ p ++ x :: xs = p ++ [n] := by
          intro h
          have := List.append_cancel_left h
          simp only [List.cons.injEq] at this
          exact hn this.1.symm
        have h2 : p ++ x :: xs ∉ sub.subdirs (p ++ [n]) := by
          intro h
          obtain ⟨y, ys, hq, _⟩ := mem_subdirs_head _ _ _ h
          simp only [List.append_assoc, List.singleton_append] at hq
          have := List.append_cancel_left hq
          simp only [List.cons.injEq] at this
          exact hn this.1.symm
        simp [h1, h2, ihr hwf.2, Dir.lookup, Dir.find, hn]

theorem subdirs_nodup (d : Dir) (hwf : d.wf = true) (p : Path) : (d.subdirs p).Nodup := by
  induction d generalizing p with
  | nil => simp [Dir.subdirs]
  | file n data rest ih =>
    simp only [Dir.wf, Bool.and_eq_true, decide_eq_true_eq] at hwf
    exact ih hwf.2 p
  | dir n sub rest ihs ihr =>
    simp only [Dir.wf, Bool.and_eq_true, decide_eq_true_eq] at hwf
    simp only [Dir.subdirs, List.nodup_cons, List.mem_append, not_or, pathJoin]
    refine ⟨⟨?_, ?_⟩, ?_⟩
    · intro h
      obtain ⟨y, ys, hq, _⟩ := mem_subdirs_head _ _ _ h
      have := congrArg List.length hq
      simp at this
    · intro h
      obtain ⟨y, ys, hq, hy⟩ := mem_subdirs_head _ _ _ h
      have := List.append_cancel_left hq
      simp only [List.cons.injEq] at this
      exact hwf.1.1 (this.1 ▸ hy)
    · rw [List.nodup_append]
      refine ⟨ihs hwf.1.2 _, ihr hwf.2 _, ?_⟩
      intro q hq1 hq2
      obtain ⟨y, ys, e1, _⟩ := mem_subdirs_head _ _ _ hq1
      obtain ⟨z, zs, e2, hz⟩ := mem_subdirs_head _ _ _ hq2
      rw [e1] at e2
      simp only [List.append_assoc, List.singleton_append] at e2
      have := List.append_cancel_left e2
      simp only [List.cons.injEq] at this
      exact hwf.1.1 (this.1 ▸ hz)

/-- In a tree without duplicate names the visited directories are the
directories strictly below the instance root. -/
theorem mem_instanceDirs_iff (g : Globals) (fs : Dir) (hwf : fs.wf = true) (p : Path) :
    p ∈ instanceDirs g fs ↔
      ∃ r s, r ≠ [] ∧ p = g.instancesDir ++ r ∧ fs.lookup p = some (.dir s) := by
  unfold instanceDirs
  cases hroot : fs.lookup g.instancesDir with
  | none =>
    simp only [List.not_mem_nil, false_iff]
    rintro ⟨r, s, hr, hp, hs⟩
    rw [hp, lookup_append_none _ _ _ hr (by simp [hroot])] at hs
    simp at hs
  | some st =>
    cases st with
    | file data =>
      simp only [List.not_mem_nil, false_iff]
      rintro ⟨r, s, hr, hp, hs⟩
      rw [hp, lookup_append_none _ _ _ hr (by simp [hroot])] at hs
      simp at hs
    | dir d =>
      simp only
      constructor
      · intro h
        obtain ⟨x, xs, hq, _⟩ := mem_subdirs_head _ _ _ h
        subst hq
        have := (mem_subdirs_iff d (wf_of_lookup _ _ _ hwf hroot) g.instancesDir (x :: xs)).1 h
        obtain ⟨hne, s, hs⟩ := this
        exact ⟨x :: xs, s, hne, rfl, by rw [lookup_append _ _ _ _ hroot]; exact hs⟩
      · rintro ⟨r, s, hr, hp, hs⟩
        subst hp
        rw [lookup_append _ _ _ _ hroot] at hs
        exact (mem_subdirs_iff d (wf_of_lookup _ _ _ hwf hroot) g.instancesDir r).2 ⟨hr, s, hs⟩

theorem instanceDirs_nodup (g : Globals) (fs : Dir) (hwf : fs.wf = true) :
    (instanceDirs g fs).Nodup := by
  unfold instanceDirs
  cases hroot : fs.lookup g.instancesDir with
  | none => simp
  | some st =>
    cases st with
    | file data => simp
    | dir d => exact subdirs_nodup d (wf_of_lookup _ _ _ hwf hroot) _

/-! ## Facts about the terminators -/

theorem dockerKill_returns (env : Env) (fs : Dir) (dir : Path) :
    (dockerKillInstance env fs dir).out = .returned () := by
  cases hr : readFile fs (pathJoin dir "docker-id") with
  | none => simp [dockerKillInstance, hr, emit]
  | some data =>
    cases h : env.getDockerClientOk <;>
      simp [dockerKillInstance, hr, bind_eq, pure_eq, Run.bind, emit, h]

theorem dockerKill_trace (env : Env) (fs : Dir) (dir : Path) :
    (dockerKillInstance env fs dir).trace =
      match readFile fs (pathJoin dir "docker-id") with
      | none => [.readFile (pathJoin dir "docker-id") false]
      | some data =>
        [.readFile (pathJoin dir "docker-id") true, .getDockerClient env.getDockerClientOk] ++
          (if env.getDockerClientOk = true then
            [.docker (.containerRemove data true) (env.containerRemoveOk data)]
          else []) := by
  cases hr : readFile fs (pathJoin dir "docker-id") with
  | none => simp [dockerKillInstance, hr, emit]
  | some data =>
    cases h : env.getDockerClientOk <;>
      simp [dockerKillInstance, hr, bind_eq, pure_eq, Run.bind, emit, h]

/-- The run of `qemuKillInstance` once the connection is established. -/
theorem qemuKill_eq (env : Env) (dir : Path) (conn : Conn)
    (hd : env.dial (pathJoin dir "socket") = some conn) :
    qemuKillInstance env dir =
      let sock := pathJoin dir "socket"
      if conn.capWriteOk = false then
        ⟨[.dial sock 30 true, .write sock (fprintln qmpCapabilities) false, .close sock],
          .returned ()⟩
      else if conn.quitWriteOk = false then
        ⟨[.dial sock 30 true, .write sock (fprintln qmpCapabilities) true,
            .write sock (fprintln qmpQuit) false, .close sock], .returned ()⟩
      else
        match drain conn with
        | .returned stop =>
          ⟨[.dial sock 30 true, .write sock (fprintln qmpCapabilities) true,
              .write sock (fprintln qmpQuit) true, .setReadDeadline sock 60 conn.deadlineOk,
              .scan sock stop, .close sock], .returned ()⟩
        | .blocked =>
          ⟨[.dial sock 30 true, .write sock (fprintln qmpCapabilities) true,
              .write sock (fprintln qmpQuit) true, .setReadDeadline sock 60 conn.deadlineOk],
            .blocked⟩
        | .panicked =>
          ⟨[.dial sock 30 true, .write sock (fprintln qmpCapabilities) true,
              .write sock (fprintln qmpQuit) true, .setReadDeadline sock 60 conn.deadlineOk,
              .close sock], .panicked⟩ := by
  unfold qemuKillInstance
  simp only [hd]
  cases h1 : conn.capWriteOk with
  | false => simp [bind_eq, pure_eq, Run.bind, Run.deferring, emit]
  | true =>
    cases h2 : conn.quitWriteOk with
    | false => simp [bind_eq, pure_eq, Run.bind, Run.deferring, emit]
    | true => cases h3 : drain conn <;> simp [bind_eq, Run.bind, Run.deferring, emit, h3]

theorem drain_not_panicked (conn : Conn) : drain conn ≠ .panicked := by
  unfold drain
  split
  · split
    · simp
    · split <;> simp
  · simp

theorem drain_returns (conn : Conn) (h : conn.deadlineOk = true ∨ conn.ending = Ending.closed) :
    ∃ stop, drain conn = .returned stop := by
  unfold drain
  split
  · rcases h with h | h
    · cases conn.ending <;> simp [h]
    · simp [h]
  · exact ⟨_, rfl⟩

theorem qemuKill_returns (env : Env) (dir : Path) (h : env.drainsEnd) :
    (qemuKillInstance env dir).out = .returned () := by
  cases hd : env.dial (pathJoin dir "socket") with
  | none => simp [qemuKillInstance, hd, emit]
  | some conn =>
    rw [qemuKill_eq env dir conn hd]
    obtain ⟨stop, hs⟩ := drain_returns conn (h _ _ hd)
    simp only [hs]
    split
    · rfl
    · split <;> rfl

theorem dockerKill_treated (env : Env) (fs : Dir) (dir : Path) (e : Event)
    (h : e ∈ (dockerKillInstance env fs dir).trace) : e.treated = none := by
  rw [dockerKill_trace] at h
  split at h
  · simp at h
    simp [h, Event.treated]
  · simp only [List.mem_append, List.mem_cons, List.mem_singleton, List.not_mem_nil,
      or_false] at h
    rcases h with (h | h) | h
    · simp [h, Event.treated]
    · simp [h, Event.treated]
    · split at h
      · simp at h
        simp [h, Event.treated]
      · simp at h

theorem qemuKill_treated (env : Env) (dir : Path) (e : Event)
    (h : e ∈ (qemuKillInstance env dir).trace) : e.treated = none := by
  cases hd : env.dial (pathJoin dir "socket") with
  | none =>
    simp [qemuKillInstance, hd, emit] at h
    simp [h, Event.treated]
  | some conn =>
    rw [qemuKill_eq env dir conn hd] at h
    simp only at h
    split at h
    · simp at h
      rcases h with h | h | h <;> simp [h, Event.treated]
    · split at h
      · simp at h
        rcases h with h | h | h | h <;> simp [h, Event.treated]
      · split at h
        · simp at h
          rcases h with h | h | h | h | h | h <;> simp [h, Event.treated]
        · simp at h
          rcases h with h | h | h | h <;> simp [h, Event.treated]
        · simp at h
          rcases h with h | h | h | h | h <;> simp [h, Event.treated]

/-! ## Facts about a visit -/

/-- The trace of a visit: the load, the terminator when the load succeeded,
and last the enqueueing when the terminator returned. -/
theorem visit_eq (env : Env) (fs : Dir) (p : Path) :
    visit env fs p =
      match env.loadVMConfig p with
      | none => ⟨[.loadVMConfig p false, .enqueue p], .returned ()⟩
      | some cfg =>
        if cfg.container = true then
          ⟨[.loadVMConfig p true, .call .docker p] ++ (dockerKillInstance env fs p).trace ++
            [.enqueue p], .returned ()⟩
        else
          match (qemuKillInstance env p).out with
          | .returned _ =>
            ⟨[.loadVMConfig p true, .call .qemu p] ++ (qemuKillInstance env p).trace ++
              [.enqueue p], .returned ()⟩
          | .blocked =>
            ⟨[.loadVMConfig p true, .call .qemu p] ++ (qemuKillInstance env p).trace, .blocked⟩
          | .panicked =>
            ⟨[.loadVMConfig p true, .call .qemu p] ++ (qemuKillInstance env p).trace,
              .panicked⟩ := by
  unfold visit
  cases env.loadVMConfig p with
  | none => simp [bind_eq, Run.bind, emit]
  | some cfg =>
    cases hc : cfg.container with
    | true =>
      simp [bind_eq, Run.bind, emit, dockerKill_returns, hc]
    | false =>
      cases hq : (qemuKillInstance env p).out <;> simp [bind_eq, Run.bind, emit, hq, hc]

theorem visit_returns (env : Env) (fs : Dir) (p : Path) (h : env.drainsEnd) :
    (visit env fs p).out = .returned () := by
  rw [visit_eq]
  cases env.loadVMConfig p with
  | none => rfl
  | some cfg =>
    simp only [qemuKill_returns env p h]
    split <;> rfl

theorem visit_treated (env : Env) (fs : Dir) (q p : Path) (e : Event)
    (h : e ∈ (visit env fs q).trace) (ht : e.treated = some p) : p = q := by
  rw [visit_eq] at h
  have key : ∀ (k : Terminator) (ok : Bool) (t : Trace), (∀ e ∈ t, e.treated = none) →
      e ∈ [Event.loadVMConfig q ok, .call k q] ++ t ++ [.enqueue q] → p = q := by
    intro k ok t hnone hmem
    simp only [List.mem_append, List.mem_cons, List.mem_singleton, List.not_mem_nil,
      or_false] at hmem
    rcases hmem with ((hmem | hmem) | hmem) | hmem
    · subst hmem; simpa [Event.treated] using ht.symm
    · subst hmem; simpa [Event.treated] using ht.symm
    · rw [hnone e hmem] at ht; simp at ht
    · subst hmem; simpa [Event.treated] using ht.symm
  split at h
  · simp only [List.mem_cons, List.mem_singleton, List.not_mem_nil, or_false] at h
    rcases h with h | h
    · subst h; simpa [Event.treated] using ht.symm
    · subst h; simpa [Event.treated] using ht.symm
  · split at h
    · exact key _ _ _ (dockerKill_treated env fs q) h
    · split at h
      · exact key _ _ _ (qemuKill_treated env q) h
      · exact key _ _ _ (qemuKill_treated env q) (List.mem_append_left _ h)
      · exact key _ _ _ (qemuKill_treated env q) (List.mem_append_left _ h)

theorem visitAll_mem (env : Env) (fs : Dir) (l : List Path) (e : Event)
    (h : e ∈ (visitAll env fs l).trace) : ∃ q ∈ l, e ∈ (visit env fs q).trace := by
  induction l with
  | nil => simp [visitAll, pure_eq] at h
  | cons q qs ih =>
    simp only [visitAll, bind_eq] at h
    rcases Run.trace_bind_subset _ _ _ h with h | ⟨_, _, h⟩
    · exact ⟨q, by simp, h⟩
    · obtain ⟨q1, hq1, hm⟩ := ih h
      exact ⟨q1, by simp [hq1], hm⟩

theorem visitAll_returns (env : Env) (fs : Dir) (l : List Path) (h : env.drainsEnd) :
    visitAll env fs l = ⟨(l.map fun q => (visit env fs q).trace).flatten, .returned ()⟩ := by
  induction l with
  | nil => rfl
  | cons q qs ih =>
    simp only [visitAll, bind_eq]
    rw [Run.bind_returned _ _ () (visit_returns env fs q h), ih]
    simp

/-- The walk over the instance root is the visit of the directories below it,
and returns them as `toRemove`. -/
theorem walkInstances_eq (env : Env) (g : Globals) (fs : Dir) :
    walkInstances env g fs =
      Run.bind (visitAll env fs (instanceDirs g fs))
        (fun _ => ⟨[], .returned (instanceDirs g fs)⟩) := by
  unfold walkInstances filepathWalk instanceDirs
  cases hroot : fs.lookup g.instancesDir with
  | none => simp [walkFn, visitAll, pure_eq, Run.pure_bind]
  | some st =>
    cases st with
    | file data => simp [walkFn, visitAll, pure_eq, Run.pure_bind]
    | dir d =>
      have := walk_walkFn env g fs d [] []
      simp only [List.append_nil, List.nil_append] at this
      simp [walkFn, bind_eq, pure_eq, Run.pure_bind, this]

theorem walkInstances_returns (env : Env) (g : Globals) (fs : Dir) (h : env.drainsEnd) :
    walkInstances env g fs =
      ⟨((instanceDirs g fs).map fun q => (visit env fs q).trace).flatten,
        .returned (instanceDirs g fs)⟩ := by
  rw [walkInstances_eq, visitAll_returns env fs _ h]
  simp [Run.bind]

/-! ## Facts about the removals -/

theorem removeAll_spec (env : Env) (fs : Dir) (p : Path) :
    ∃ ok fs1, removeAll env fs p = ⟨[.removeAll p ok], .returned fs1⟩ ∧
      (fs1 = fs ∨ fs1 = fs.remove p) ∧
      (env.removable p → fs1.lookup p = none) ∧
      (fs.lookup p = none → ok = true ∧ fs1 = fs) := by
  unfold removeAll
  cases hl : fs.lookup p with
  | none => exact ⟨true, fs, rfl, Or.inl rfl, fun _ => hl, fun _ => ⟨rfl, rfl⟩⟩
  | some st =>
    by_cases hf : p = [] ∨ env.removeAllFails p = true
    · refine ⟨false, fs, by simp [hf], Or.inl rfl, ?_, by simp⟩
      rintro ⟨h1, h2⟩
      rcases hf with hf | hf
      · exact absurd hf h1
      · rw [h2] at hf
        simp at hf
    · refine ⟨true, fs.remove p, by simp [hf], Or.inr rfl, ?_, by simp⟩
      rintro ⟨h1, _⟩
      exact lookup_remove_self p h1 fs

theorem removeInstances_spec (env : Env) (l : List Path) (fs : Dir) :
    ∃ t fs1, removeInstances env l fs = ⟨t, .returned fs1⟩ ∧
      List.Forall₂ (fun p e => ∃ ok, e = Event.removeAll p ok) l t ∧
      (∀ q, fs.lookup q = none → fs1.lookup q = none) ∧
      (∀ q data, fs.lookup q = some (.file data) → (∀ p ∈ l, ¬ p <+: q) →
        fs1.lookup q = some (.file data)) ∧
      ((∀ p ∈ l, env.removable p) → ∀ p ∈ l, fs1.lookup p = none) := by
  induction l generalizing fs with
  | nil => exact ⟨[], fs, rfl, List.Forall₂.nil, fun _ h => h, fun _ _ h _ => h, by simp⟩
  | cons p ps ih =>
    obtain ⟨ok, fs1, h1, hfs1, hrem, _⟩ := removeAll_spec env fs p
    obtain ⟨t, fs2, h2, hall, hnone, hfile, hgone⟩ := ih fs1
    have hnone1 : ∀ q, fs.lookup q = none → fs1.lookup q = none := by
      intro q hq
      rcases hfs1 with e | e
      · rw [e]; exact hq
      · rw [e]; exact lookup_remove_of_none q fs p hq
    refine ⟨Event.removeAll p ok :: t, fs2, ?_, ?_, ?_, ?_, ?_⟩
    · simp [removeInstances, bind_eq, Run.bind, h1, h2]
    · exact List.Forall₂.cons ⟨ok, rfl⟩ hall
    · exact fun q hq => hnone q (hnone1 q hq)
    · intro q data hq hpre
      apply hfile q data
      · rcases hfs1 with e | e
        · rw [e]; exact hq
        · rw [e]; exact lookup_remove_file q fs p data hq (hpre p (by simp))
      · exact fun p1 hp1 => hpre p1 (by simp [hp1])
    · intro hall1 p1 hp1
      simp only [List.mem_cons] at hp1
      rcases hp1 with e | hp1
      · subst e
        exact hnone _ (hrem (hall1 _ (by simp)))
      · exact hgone (fun p2 hp2 => hall1 p2 (by simp [hp2])) p1 hp1

theorem lookup_below_none (fs : Dir) (p r : Path) (h : fs.lookup p = none) :
    fs.lookup (p ++ r) = none := by
  cases r with
  | nil => simpa using h
  | cons x xs => exact lookup_append_none p (x :: xs) fs (by simp) (by simp [h])

/-- The final purge: three removals, none of which creates anything, and each
path that can be removed is gone afterwards. -/
theorem purgeFilesystem_spec (env : Env) (g : Globals) (fs : Dir) :
    ∃ ok1 ok2 ok3 fs1,
      purgeFilesystem env g fs =
        ⟨[.removeAll g.dataDir ok1, .removeAll g.instancesDir ok2,
            .removeAll g.lockPath ok3], .returned fs1⟩ ∧
      (∀ q, fs.lookup q = none → fs1.lookup q = none) ∧
      (env.removable g.dataDir → fs1.lookup g.dataDir = none) ∧
      (env.removable g.instancesDir → fs1.lookup g.instancesDir = none) ∧
      (env.removable g.lockPath → fs1.lookup g.lockPath = none) ∧
      (fs.lookup g.dataDir = none → fs.lookup g.instancesDir = none →
        fs.lookup g.lockPath = none → ok1 = true ∧ ok2 = true ∧ ok3 = true ∧ fs1 = fs) := by
  obtain ⟨ok1, fs1, h1, hfs1, hrem1, hq1⟩ := removeAll_spec env fs g.dataDir
  obtain ⟨ok2, fs2, h2, hfs2, hrem2, hq2⟩ := removeAll_spec env fs1 g.instancesDir
  obtain ⟨ok3, fs3, h3, hfs3, hrem3, hq3⟩ := removeAll_spec env fs2 g.lockPath
  have hn1 : ∀ q, fs.lookup q = none → fs1.lookup q = none := by
    intro q hq
    rcases hfs1 with e | e
    · rw [e]; exact hq
    · rw [e]; exact lookup_remove_of_none q fs _ hq
  have hn2 : ∀ q, fs1.lookup q = none → fs2.lookup q = none := by
    intro q hq
    rcases hfs2 with e | e
    · rw [e]; exact hq
    · rw [e]; exact lookup_remove_of_none q fs1 _ hq
  have hn3 : ∀ q, fs2.lookup q = none → fs3.lookup q = none := by
    intro q hq
    rcases hfs3 with e | e
    · rw [e]; exact hq
    · rw [e]; exact lookup_remove_of_none q fs2 _ hq
  refine ⟨ok1, ok2, ok3, fs3, ?_, ?_, ?_, ?_, ?_, ?_⟩
  · simp [purgeFilesystem, bind_eq, Run.bind, h1, h2, h3]
  · exact fun q hq => hn3 q (hn2 q (hn1 q hq))
  · exact fun h => hn3 _ (hn2 _ (hrem1 h))
  · exact fun h => hn3 _ (hrem2 h)
  · exact fun h => hrem3 h
  · intro a b c
    obtain ⟨e1, e1a⟩ := hq1 a
    subst e1a
    obtain ⟨e2, e2a⟩ := hq2 b
    subst e2a
    obtain ⟨e3, e3a⟩ := hq3 c
    exact ⟨e1, e2, e3, e3a⟩

/-! ## Facts about the whole run -/

theorem initNetworking_eq (env : Env) :
    initNetworking env =
      ⟨[.netConfigLoad env.netConfigLoadOk, .initNetworkPhase1 env.initNetworkPhase1Ok] ++
        (if env.initNetworkPhase1Ok = true then
          [.initDockerNetworking env.initDockerNetworkingOk] else []), .returned ()⟩ := by
  cases h : env.initNetworkPhase1Ok <;>
    simp [initNetworking, bind_eq, pure_eq, Run.bind, emit, h]

theorem resetNetworking_eq (env : Env) :
    resetNetworking env =
      ⟨[.shutdownDockerNetwork, .resetDockerNetworking, .resetNetwork env.resetNetworkOk],
        .returned ()⟩ := by
  simp [resetNetworking, bind_eq, Run.bind, emit]

/-- When no drain loop waits forever, the part of the run before the final
purge returns, and its trace is: network initialisation, the visits, one
removal per visited directory, network reset. -/
theorem shutdownInstances_returns (env : Env) (g : Globals) (fs : Dir) (h : env.drainsEnd) :
    ∃ t fs1, removeInstances env (instanceDirs g fs) fs = ⟨t, .returned fs1⟩ ∧
      shutdownInstances env g fs =
        ⟨(initNetworking env).trace ++ (walkInstances env g fs).trace ++ t ++
          (resetNetworking env).trace, .returned fs1⟩ := by
  obtain ⟨t, fs1, h1, _⟩ := removeInstances_spec env (instanceDirs g fs) fs
  refine ⟨t, fs1, h1, ?_⟩
  simp [shutdownInstances, bind_eq, pure_eq, Run.bind, initNetworking_eq, resetNetworking_eq,
    walkInstances_returns env g fs h, h1]

/-- Whatever happens, an event of the run that treats a path as an instance
belongs to the visit of a directory below the instance root. -/
theorem purge_treated (env : Env) (g : Globals) (fs : Dir) (e : Event) (p : Path)
    (he : e ∈ (purgeLauncherState env g fs).trace) (ht : e.treated = some p) :
    p ∈ instanceDirs g fs := by
  have hwalk : ∀ e, e ∈ (walkInstances env g fs).trace → e.treated = some p →
      p ∈ instanceDirs g fs := by
    intro e he ht
    rw [walkInstances_eq] at he
    rcases Run.trace_bind_subset _ _ _ he with he | ⟨_, _, he⟩
    · obtain ⟨q, hq, hm⟩ := visitAll_mem env fs _ e he
      exact (visit_treated env fs q p e hm ht) ▸ hq
    · simp at he
  have hrm : ∀ l fs0 e, e ∈ (removeInstances env l fs0).trace → e.treated = none := by
    intro l fs0 e he
    obtain ⟨t, fs1, h1, hall, -⟩ := removeInstances_spec env l fs0
    rw [h1] at he
    simp only at he
    clear h1
    induction hall with
    | nil => simp at he
    | cons hx _ ih =>
      simp only [List.mem_cons] at he
      rcases he with he | he
      · obtain ⟨ok, hok⟩ := hx
        simp [he, hok, Event.treated]
      · exact ih he
  simp only [purgeLauncherState, shutdownInstances, bind_eq] at he
  rcases Run.trace_bind_subset _ _ _ he with he | ⟨fs1, _, he⟩
  · rcases Run.trace_bind_subset _ _ _ he with he | ⟨_, _, he⟩
    · rw [initNetworking_eq] at he
      simp only [List.mem_append, List.mem_cons, List.mem_singleton, List.not_mem_nil,
        or_false] at he
      rcases he with (he | he) | he
      · simp [he, Event.treated] at ht
      · simp [he, Event.treated] at ht
      · split at he
        · simp at he
          simp [he, Event.treated] at ht
        · simp at he
    · rcases Run.trace_bind_subset _ _ _ he with he | ⟨l, _, he⟩
      · exact hwalk e he ht
      · rcases Run.trace_bind_subset _ _ _ he with he | ⟨fs2, _, he⟩
        · rw [hrm _ _ e he] at ht
          simp at ht
        · rcases Run.trace_bind_subset _ _ _ he with he | ⟨_, _, he⟩
          · rw [resetNetworking_eq] at he
            simp at he
            rcases he with he | he | he <;> simp [he, Event.treated] at ht
          · simp [pure_eq] at he
  · obtain ⟨ok1, ok2, ok3, fs2, h2, _⟩ := purgeFilesystem_spec env g fs1
    rw [h2] at he
    simp at he
    rcases he with he | he | he <;> simp [he, Event.treated] at ht

/-! ## Facts about the scanner -/

theorem lineLengths_ne_nil (data : List Nat) : lineLengths data ≠ [] := by
  cases data with
  | nil => simp [lineLengths]
  | cons b rest =>
    simp only [lineLengths]
    split
    · simp
    · split <;> simp

/-- The scanner gets through data whose lines all fit its buffer. -/
theorem scanLines_of_short (data : List Nat) (pending : Nat)
    (hhead : ∀ n ns, lineLengths data = n :: ns → pending + n < maxScanTokenSize)
    (htail : ∀ n ns m, lineLengths data = n :: ns → m ∈ ns → m < maxScanTokenSize) :
    scanLines pending data = true := by
  induction data generalizing pending with
  | nil => rfl
  | cons b rest ih =>
    by_cases hb : b = 10
    · simp only [scanLines, hb, if_true]
      have hl : lineLengths (b :: rest) = 0 :: lineLengths rest := by simp [lineLengths, hb]
      apply ih
      · intro n ns hn
        have := htail 0 (lineLengths rest) n hl (by simp [hn])
        omega
      · intro n ns m hn hm
        exact htail 0 (lineLengths rest) m hl (by simp [hn, hm])
    · simp only [scanLines, hb, if_false]
      cases hr : lineLengths rest with
      | nil => exact absurd hr (lineLengths_ne_nil rest)
      | cons n ns =>
        have hl : lineLengths (b :: rest) = (n + 1) :: ns := by simp [lineLengths, hb, hr]
        have h1 := hhead _ _ hl
        have hlt : ¬ maxScanTokenSize ≤ pending + 1 := by omega
        simp only [hlt, if_false]
        apply ih
        · intro n1 ns1 hn1
          rw [hr] at hn1
          simp only [List.cons.injEq] at hn1
          omega
        · intro n1 ns1 m hn1 hm
          rw [hr] at hn1
          simp only [List.cons.injEq] at hn1
          exact htail _ _ m hl (hn1.2 ▸ hm)

theorem scanLines_of_lines (data : List Nat)
    (h : ∀ n ∈ lineLengths data, n < maxScanTokenSize) : scanLines 0 data = true := by
  apply scanLines_of_short
  · intro n ns hn
    have := h n (by simp [hn])
    omega
  · intro n ns m hn hm
    exact h m (by simp [hn, hm])

/-- A line that fills the buffer ends the scan. -/
theorem scanLines_replicate (k : Nat) (b : Nat) (hb : b ≠ 10) (pending : Nat) (rest : List Nat)
    (h : maxScanTokenSize ≤ pending + k) (hp : pending < maxScanTokenSize) :
    scanLines pending (List.replicate k b ++ rest) = false := by
  induction k generalizing pending with
  | zero => omega
  | succ k ih =>
    simp only [List.replicate_succ, List.cons_append, scanLines, hb, if_false]
    by_cases hlt : maxScanTokenSize ≤ pending + 1
    · simp [hlt]
    · simp only [hlt, if_false]
      exact ih (pending + 1) (by omega) (by omega)

/-! ## Facts about reading a trace -/

theorem calls_append (a b : Trace) : calls (a ++ b) = calls a ++ calls b := by
  induction a with
  | nil => rfl
  | cons e a ih => cases e <;> simp [calls, ih]

theorem calls_nil_of_treated (t : Trace) (h : ∀ e ∈ t, e.treated = none) : calls t = [] := by
  induction t with
  | nil => rfl
  | cons e t ih =>
    have ht := ih (fun e he => h e (by simp [he]))
    have he := h e (by simp)
    cases e <;> simp_all [calls, Event.treated]

theorem mem_calls (t : Trace) (k : Terminator) (p : Path) (h : (k, p) ∈ calls t) :
    Event.call k p ∈ t := by
  induction t with
  | nil => simp [calls] at h
  | cons e t ih =>
    cases e <;> simp_all [calls]
    rcases h with h | h
    · simp [h]
    · exact Or.inr (ih h)

theorem dockerKill_not_network (env : Env) (fs : Dir) (dir : Path) (e : Event)
    (h : e ∈ (dockerKillInstance env fs dir).trace) : e.isNetwork = false := by
  rw [dockerKill_trace] at h
  split at h
  · simp at h
    simp [h, Event.isNetwork]
  · simp only [List.mem_append, List.mem_cons, List.mem_singleton, List.not_mem_nil,
      or_false] at h
    rcases h with (h | h) | h
    · simp [h, Event.isNetwork]
    · simp [h, Event.isNetwork]
    · split at h
      · simp at h
        simp [h, Event.isNetwork]
      · simp at h

theorem qemuKill_not_network (env : Env) (dir : Path) (e : Event)
    (h : e ∈ (qemuKillInstance env dir).trace) : e.isNetwork = false := by
  cases hd : env.dial (pathJoin dir "socket") with
  | none =>
    simp [qemuKillInstance, hd, emit] at h
    simp [h, Event.isNetwork]
  | some conn =>
    rw [qemuKill_eq env dir conn hd] at h
    simp only at h
    split at h
    · simp at h
      rcases h with h | h | h <;> simp [h, Event.isNetwork]
    · split at h
      · simp at h
        rcases h with h | h | h | h <;> simp [h, Event.isNetwork]
      · split at h
        · simp at h
          rcases h with h | h | h | h | h | h <;> simp [h, Event.isNetwork]
        · simp at h
          rcases h with h | h | h | h <;> simp [h, Event.isNetwork]
        · simp at h
          rcases h with h | h | h | h | h <;> simp [h, Event.isNetwork]

theorem visit_not_network (env : Env) (fs : Dir) (q : Path) (e : Event)
    (h : e ∈ (visit env fs q).trace) : e.isNetwork = false := by
  rw [visit_eq] at h
  have key : ∀ (k : Terminator) (ok : Bool) (t : Trace), (∀ e ∈ t, e.isNetwork = false) →
      e ∈ [Event.loadVMConfig q ok, .call k q] ++ t ++ [.enqueue q] → e.isNetwork = false := by
    intro k ok t hnone hmem
    simp only [List.mem_append, List.mem_cons, List.mem_singleton, List.not_mem_nil,
      or_false] at hmem
    rcases hmem with ((hmem | hmem) | hmem) | hmem
    · simp [hmem, Event.isNetwork]
    · simp [hmem, Event.isNetwork]
    · exact hnone e hmem
    · simp [hmem, Event.isNetwork]
  split at h
  · simp only [List.mem_cons, List.mem_singleton, List.not_mem_nil, or_false] at h
    rcases h with h | h <;> simp [h, Event.isNetwork]
  · split at h
    · exact key _ _ _ (dockerKill_not_network env fs q) h
    · split at h
      · exact key _ _ _ (qemuKill_not_network env q) h
      · exact key _ _ _ (qemuKill_not_network env q) (List.mem_append_left _ h)
      · exact key _ _ _ (qemuKill_not_network env q) (List.mem_append_left _ h)

theorem removals_not_network (l : List Path) (t : Trace)
    (h : List.Forall₂ (fun p e => ∃ ok, e = Event.removeAll p ok) l t) :
    ∀ e ∈ t, e.isNetwork = false := by
  induction h with
  | nil => simp
  | cons hx _ ih =>
    intro e he
    simp only [List.mem_cons] at he
    rcases he with he | he
    · obtain ⟨ok, hok⟩ := hx
      simp [he, hok, Event.isNetwork]
    · exact ih e he

theorem enqueued_append (a b : Trace) : enqueued (a ++ b) = enqueued a ++ enqueued b := by
  induction a with
  | nil => rfl
  | cons e a ih => cases e <;> simp [enqueued, ih]

theorem enqueued_nil_of_treated (t : Trace) (h : ∀ e ∈ t, e.treated = none) :
    enqueued t = [] := by
  induction t with
  | nil => rfl
  | cons e t ih =>
    have ht := ih (fun e he => h e (by simp [he]))
    have he := h e (by simp)
    cases e <;> simp_all [enqueued, Event.treated]

/-- A visit that returns enqueues its directory, once. -/
theorem enqueued_visit (env : Env) (fs : Dir) (p : Path) (h : env.drainsEnd) :
    enqueued (visit env fs p).trace = [p] := by
  rw [visit_eq]
  have hd := enqueued_nil_of_treated _ (dockerKill_treated env fs p)
  have hq := enqueued_nil_of_treated _ (qemuKill_treated env p)
  have hret := qemuKill_returns env p h
  cases env.loadVMConfig p with
  | none => simp [enqueued]
  | some cfg =>
    cases hc : cfg.container with
    | true => simp [enqueued, enqueued_append, hd, hc]
    | false => simp [enqueued, enqueued_append, hq, hc, hret]

theorem enqueued_visits (env : Env) (fs : Dir) (l : List Path) (h : env.drainsEnd) :
    enqueued (l.map fun q => (visit env fs q).trace).flatten = l := by
  induction l with
  | nil => rfl
  | cons q qs ih => simp [enqueued_append, enqueued_visit env fs q h, ih]

/-- The calls of a visit: none when the configuration does not load, else the
one terminator the configuration selects. -/
theorem calls_visit (env : Env) (fs : Dir) (p : Path) :
    calls (visit env fs p).trace =
      match env.loadVMConfig p with
      | none => []
      | some cfg => [(if cfg.container = true then Terminator.docker else Terminator.qemu, p)] := by
  rw [visit_eq]
  have hd := calls_nil_of_treated _ (dockerKill_treated env fs p)
  have hq := calls_nil_of_treated _ (qemuKill_treated env p)
  cases env.loadVMConfig p with
  | none => simp [calls]
  | some cfg =>
    cases hc : cfg.container with
    | true => simp [calls, calls_append, hd, hc]
    | false =>
      cases ho : (qemuKillInstance env p).out <;> simp [calls, calls_append, hq, hc]

/-- The traces of the visits of a list of directories, one after the other. -/
theorem flatten_treated (env : Env) (fs : Dir) (l : List Path) (e : Event) (p : Path)
    (h : e ∈ (l.map fun q => (visit env fs q).trace).flatten) (ht : e.treated = some p) :
    p ∈ l := by
  simp only [List.mem_flatten, List.mem_map] at h
  obtain ⟨t, ⟨q, hq, rfl⟩, he⟩ := h
  exact (visit_treated env fs q p e he ht) ▸ hq

/-- In a tree without duplicate names, the trace of the walk splits around the
visit of each directory, and no other visit treats that directory. -/
theorem walk_split (env : Env) (g : Globals) (fs : Dir) (hwf : fs.wf = true)
    (hdrain : env.drainsEnd) (p : Path) (hp : p ∈ instanceDirs g fs) :
    ∃ a c, (walkInstances env g fs).trace = a ++ (visit env fs p).trace ++ c ∧
      (∀ e ∈ a, e.treated ≠ some p) ∧ (∀ e ∈ c, e.treated ≠ some p) := by
  have hnd := instanceDirs_nodup g fs hwf
  rw [walkInstances_returns env g fs hdrain]
  obtain ⟨l1, l2, hl⟩ := List.append_of_mem hp
  rw [hl] at hnd ⊢
  have hp1 : p ∉ l1 := by
    intro h
    have := (List.nodup_append.1 hnd).2.2 h (by simp : p ∈ p :: l2)
    exact this
  have hp2 : p ∉ l2 := by
    have := (List.nodup_append.1 hnd).2.1
    exact (List.nodup_cons.1 this).1
  refine ⟨(l1.map fun q => (visit env fs q).trace).flatten,
    (l2.map fun q => (visit env fs q).trace).flatten, by simp, ?_, ?_⟩
  · exact fun e he ht => hp1 (flatten_treated env fs l1 e p he ht)
  · exact fun e he ht => hp2 (flatten_treated env fs l2 e p he ht)

/-! ## The claims -/

/-- C1 (convergence under failure): whatever the initial tree and whichever of
the network steps, configuration loads, socket dials and writes, reads of the
container id, docker client calls and network resets fail, the run returns and
leaves neither the data directory, nor the instance root, nor the lock file,
provided no drain loop waits forever and the three final removals themselves
do not fail. -/
theorem purge_converges (env : Env) (g : Globals) (fs : Dir) (hdrain : env.drainsEnd)
    (hdata : env.removable g.dataDir) (hinst : env.removable g.instancesDir)
    (hlock : env.removable g.lockPath) :
    ∃ fs1, (purgeLauncherState env g fs).out = .returned fs1 ∧
      fs1.lookup g.dataDir = none ∧ fs1.lookup g.instancesDir = none ∧
      fs1.lookup g.lockPath = none := by
  obtain ⟨t, fs1, _, h1⟩ := shutdownInstances_returns env g fs hdrain
  obtain ⟨ok1, ok2, ok3, fs2, h2, _, hd, hi, hl, _⟩ := purgeFilesystem_spec env g fs1
  refine ⟨fs2, ?_, hd hdata, hi hinst, hl hlock⟩
  simp [purgeLauncherState, bind_eq, Run.bind, h1, h2]

theorem purge_converges_witness :
    envDegraded.drainsEnd ∧ envDegraded.removable g0.dataDir ∧
      envDegraded.removable g0.instancesDir ∧ envDegraded.removable g0.lockPath ∧
      ∃ fs1, (purgeLauncherState envDegraded g0 fs0).out = .returned fs1 ∧
        fs1.lookup g0.dataDir = none ∧ fs1.lookup g0.instancesDir = none ∧
        fs1.lookup g0.lockPath = none :=
  have hdrain : envDegraded.drainsEnd := fun _ _ h => nomatch h
  ⟨hdrain, ⟨by decide, rfl⟩, ⟨by decide, rfl⟩, ⟨by decide, rfl⟩,
    purge_converges envDegraded g0 fs0 hdrain ⟨by decide, rfl⟩ ⟨by decide, rfl⟩
      ⟨by decide, rfl⟩⟩

/-- C2, as stated, fails: a monitor that accepts the connection and refuses
the first write has its connection closed at once, with no read at all. -/
theorem qemuKill_closes_without_drain :
    envRefusing.dial (pathJoin ["instances", "vm1"] "socket") = some connRefusing ∧
      (qemuKillInstance envRefusing ["instances", "vm1"]).trace =
        [.dial ["instances", "vm1", "socket"] 30 true,
          .write ["instances", "vm1", "socket"] "\x7b \"execute\": \"qmp_capabilities\" \x7d\n" false,
          .close ["instances", "vm1", "socket"]] ∧
      ¬ closesAfterDrain false (qemuKillInstance envRefusing ["instances", "vm1"]).trace = true := by
  decide

/-- C2, amended (VM shutdown sequencing): in every run in which the connection
is established, `qmp_capabilities` is written before `quit`; and when both
writes succeed and every line the peer sends is shorter than the 64 KiB buffer
of the scanner, the connection is closed only after a read reported
end-of-stream or the expiry of the 60-second deadline. -/
theorem qemuKill_sequencing (env : Env) (dir : Path) (conn : Conn)
    (hd : env.dial (pathJoin dir "socket") = some conn) :
    capBeforeQuit false (qemuKillInstance env dir).trace = true ∧
      (conn.capWriteOk = true → conn.quitWriteOk = true →
        (∀ n ∈ lineLengths conn.incoming, n < maxScanTokenSize) →
        closesAfterDrain false (qemuKillInstance env dir).trace = true ∧
          ∀ seconds ok, Event.setReadDeadline (pathJoin dir "socket") seconds ok ∈
            (qemuKillInstance env dir).trace → seconds = 60) := by
  have hne : fprintln qmpCapabilities ≠ fprintln qmpQuit := by decide
  rw [qemuKill_eq env dir conn hd]
  constructor
  · cases conn.capWriteOk <;> cases conn.quitWriteOk <;> cases drain conn <;>
      simp [capBeforeQuit, hne]
  · intro h1 h2 hshort
    have hscan := scanLines_of_lines conn.incoming hshort
    simp only [h1, h2, drain, hscan]
    cases conn.ending <;> cases conn.deadlineOk <;> simp [closesAfterDrain]

theorem qemuKill_sequencing_witness :
    env0.dial (pathJoin ["instances", "vm1"] "socket") = some conn0 ∧
      conn0.capWriteOk = true ∧ conn0.quitWriteOk = true ∧
      (∀ n ∈ lineLengths conn0.incoming, n < maxScanTokenSize) ∧
      capBeforeQuit false (qemuKillInstance env0 ["instances", "vm1"]).trace = true ∧
      closesAfterDrain false (qemuKillInstance env0 ["instances", "vm1"]).trace = true :=
  ⟨rfl, rfl, rfl, by decide,
    (qemuKill_sequencing env0 ["instances", "vm1"] conn0 rfl).1,
    ((qemuKill_sequencing env0 ["instances", "vm1"] conn0 rfl).2 rfl rfl (by decide)).1⟩

/-- A line of 64 KiB without a newline ends the drain loop although the peer
has not closed the stream and the deadline has not expired. -/
theorem qemuKill_long_line (env : Env) (dir : Path) (conn : Conn)
    (hd : env.dial (pathJoin dir "socket") = some conn)
    (h1 : conn.capWriteOk = true) (h2 : conn.quitWriteOk = true) (rest : List Nat)
    (hin : conn.incoming = List.replicate maxScanTokenSize 120 ++ rest) :
    (qemuKillInstance env dir).trace =
        [.dial (pathJoin dir "socket") 30 true,
          .write (pathJoin dir "socket") (fprintln qmpCapabilities) true,
          .write (pathJoin dir "socket") (fprintln qmpQuit) true,
          .setReadDeadline (pathJoin dir "socket") 60 conn.deadlineOk,
          .scan (pathJoin dir "socket") .tooLong, .close (pathJoin dir "socket")] ∧
      closesAfterDrain false (qemuKillInstance env dir).trace = false := by
  have hscan : scanLines 0 conn.incoming = false := by
    rw [hin]
    exact scanLines_replicate _ 120 (by decide) 0 rest (by omega) (by decide)
  rw [qemuKill_eq env dir conn hd]
  simp [h1, h2, drain, hscan, closesAfterDrain]

/-- C3, as stated, fails: the two lines written are not the byte strings of
the claim, which have no blank inside the braces. -/
theorem qemuKill_writes_differ :
    env0.dial (pathJoin ["instances", "vm1"] "socket") = some conn0 ∧
      conn0.capWriteOk = true ∧ conn0.quitWriteOk = true ∧
      writes (qemuKillInstance env0 ["instances", "vm1"]).trace ≠
        ["\x7b\"execute\": \"qmp_capabilities\"\x7d\n", "\x7b\"execute\": \"quit\"\x7d\n"] := by
  decide

/-- C3, amended (VM control protocol content): when the socket accepts the
connection and both writes, exactly two writes are made, each one line ended
by a newline: first `{ "execute": "qmp_capabilities" }`, then
`{ "execute": "quit" }`, each with one blank after the opening and one before
the closing brace. -/
theorem qemuKill_writes (env : Env) (dir : Path) (conn : Conn)
    (hd : env.dial (pathJoin dir "socket") = some conn)
    (h1 : conn.capWriteOk = true) (h2 : conn.quitWriteOk = true) :
    writes (qemuKillInstance env dir).trace =
      ["\x7b \"execute\": \"qmp_capabilities\" \x7d\n", "\x7b \"execute\": \"quit\" \x7d\n"] := by
  have e1 : fprintln qmpCapabilities = "\x7b \"execute\": \"qmp_capabilities\" \x7d\n" := by
    decide
  have e2 : fprintln qmpQuit = "\x7b \"execute\": \"quit\" \x7d\n" := by decide
  rw [qemuKill_eq env dir conn hd]
  simp only [h1, h2, e1, e2]
  cases drain conn <;> simp [writes]

theorem qemuKill_writes_witness :
    env0.dial (pathJoin ["instances", "vm1"] "socket") = some conn0 ∧
      conn0.capWriteOk = true ∧ conn0.quitWriteOk = true ∧
      writes (qemuKillInstance env0 ["instances", "vm1"]).trace =
        ["\x7b \"execute\": \"qmp_capabilities\" \x7d\n", "\x7b \"execute\": \"quit\" \x7d\n"] :=
  ⟨rfl, rfl, rfl, qemuKill_writes env0 ["instances", "vm1"] conn0 rfl rfl rfl⟩

/-- C4 (container removal is forced): `dockerKillInstance` returns after at
most one request to the container runtime; that request is a removal with
force set of the container named by the content of `docker-id`; no stop
request is ever made; and when `docker-id` cannot be read, no request is made
at all. -/
theorem dockerKill_forced (env : Env) (fs : Dir) (dir : Path) :
    (dockerKillInstance env fs dir).out = .returned () ∧
      (dockerCalls (dockerKillInstance env fs dir).trace = [] ∨
        ∃ data, readFile fs (pathJoin dir "docker-id") = some data ∧
          dockerCalls (dockerKillInstance env fs dir).trace =
            [.containerRemove data true]) ∧
      (∀ id, DockerCall.containerStop id ∉ dockerCalls (dockerKillInstance env fs dir).trace) ∧
      (readFile fs (pathJoin dir "docker-id") = none →
        dockerCalls (dockerKillInstance env fs dir).trace = []) := by
  refine ⟨dockerKill_returns env fs dir, ?_⟩
  rw [dockerKill_trace]
  cases hr : readFile fs (pathJoin dir "docker-id") with
  | none => simp [dockerCalls]
  | some data => cases hc : env.getDockerClientOk <;> simp [dockerCalls]

theorem dockerKill_forced_witness :
    readFile fs0 (pathJoin ["instances", "ctr1"] "docker-id") = some "abc123" ∧
      dockerCalls (dockerKillInstance env0 fs0 ["instances", "ctr1"]).trace =
        [.containerRemove "abc123" true] ∧
      readFile fs0 (pathJoin ["instances", "vm1"] "docker-id") = none ∧
      dockerCalls (dockerKillInstance env0 fs0 ["instances", "vm1"]).trace = [] :=
  ⟨by decide, by decide, by decide,
    (dockerKill_forced env0 fs0 ["instances", "vm1"]).2.2.2 (by decide)⟩

/-- C5 (unknown or corrupt instance record): in a tree without duplicate
names and when no drain loop waits forever, the walk returns as `toRemove` the
directories it enqueued; no path occurs twice in it and every directory
strictly below the instance root occurs, whether or not its configuration
loads; the run then passes each item of that list, in order, to
`os.RemoveAll`; and when these removals do not fail, none of the directories
exists once the loop is over, nor at the end of the run. -/
theorem walk_enqueues_every_directory (env : Env) (g : Globals) (fs : Dir)
    (hwf : fs.wf = true) (hdrain : env.drainsEnd) :
    ∃ toRemove removals fs1 fs2,
      (walkInstances env g fs).out = .returned toRemove ∧
      enqueued (walkInstances env g fs).trace = toRemove ∧
      toRemove.Nodup ∧
      (∀ p r s, r ≠ [] → p = g.instancesDir ++ r → fs.lookup p = some (.dir s) →
        p ∈ toRemove) ∧
      removeInstances env toRemove fs = ⟨removals, .returned fs1⟩ ∧
      List.Forall₂ (fun p e => ∃ ok, e = Event.removeAll p ok) toRemove removals ∧
      (purgeLauncherState env g fs).trace =
        (initNetworking env).trace ++ (walkInstances env g fs).trace ++ removals ++
          (resetNetworking env).trace ++ (purgeFilesystem env g fs1).trace ∧
      (purgeLauncherState env g fs).out = .returned fs2 ∧
      ((∀ p ∈ toRemove, env.removable p) →
        ∀ p ∈ toRemove, fs1.lookup p = none ∧ fs2.lookup p = none) := by
  obtain ⟨t, fs1, hrm, hall, _, _, hgone⟩ := removeInstances_spec env (instanceDirs g fs) fs
  obtain ⟨t1, fs1a, hrm1, h1⟩ := shutdownInstances_returns env g fs hdrain
  rw [hrm] at hrm1
  simp only [Run.mk.injEq, Outcome.returned.injEq] at hrm1
  obtain ⟨ht, hfs⟩ := hrm1
  subst ht hfs
  obtain ⟨ok1, ok2, ok3, fs2, h2, hnone, _⟩ := purgeFilesystem_spec env g fs1
  refine ⟨instanceDirs g fs, t, fs1, fs2, ?_, ?_, instanceDirs_nodup g fs hwf, ?_, hrm, hall,
    ?_, ?_, ?_⟩
  · rw [walkInstances_returns env g fs hdrain]
  · rw [walkInstances_returns env g fs hdrain]
    exact enqueued_visits env fs _ hdrain
  · intro p r s hr hp hs
    exact (mem_instanceDirs_iff g fs hwf p).2 ⟨r, s, hr, hp, hs⟩
  · simp [purgeLauncherState, bind_eq, Run.bind, h1, h2]
  · simp [purgeLauncherState, bind_eq, Run.bind, h1, h2]
  · intro hok p hp
    exact ⟨hgone hok p hp, hnone p (hgone hok p hp)⟩

theorem walk_enqueues_every_directory_witness :
    fs0.wf = true ∧ envRefusing.drainsEnd ∧
      ∃ toRemove removals fs1 fs2,
        (walkInstances envRefusing g0 fs0).out = .returned toRemove ∧
        enqueued (walkInstances envRefusing g0 fs0).trace = toRemove ∧
        toRemove.Nodup ∧
        (∀ p r s, r ≠ [] → p = g0.instancesDir ++ r → fs0.lookup p = some (.dir s) →
          p ∈ toRemove) ∧
        removeInstances envRefusing toRemove fs0 = ⟨removals, .returned fs1⟩ ∧
        List.Forall₂ (fun p e => ∃ ok, e = Event.removeAll p ok) toRemove removals ∧
        (purgeLauncherState envRefusing g0 fs0).trace =
          (initNetworking envRefusing).trace ++ (walkInstances envRefusing g0 fs0).trace ++
            removals ++ (resetNetworking envRefusing).trace ++
            (purgeFilesystem envRefusing g0 fs1).trace ∧
        (purgeLauncherState envRefusing g0 fs0).out = .returned fs2 ∧
        ((∀ p ∈ toRemove, envRefusing.removable p) →
          ∀ p ∈ toRemove, fs1.lookup p = none ∧ fs2.lookup p = none) :=
  have hdrain : envRefusing.drainsEnd := fun _ _ h => Or.inl (Option.some.inj h ▸ rfl)
  ⟨by decide, hdrain, walk_enqueues_every_directory envRefusing g0 fs0 (by decide) hdrain⟩

/-- C6 (dispatch by backend kind): in a tree without duplicate names and when
no drain loop waits forever, for every directory `p` strictly below the
instance root (the directories the walk visits), the terminator invocations on
`p` in the whole walk are: none when the configuration of `p` does not load;
exactly one when it loads, of the container terminator when the configuration
marks a container and of the VM terminator otherwise. The visit of `p` is one stretch of the trace of the
walk: the load, then the invocation and the steps of the terminator, then
last the enqueueing of `p`; and `p` is not enqueued before that stretch. -/
theorem walk_dispatches_by_kind (env : Env) (g : Globals) (fs : Dir)
    (hwf : fs.wf = true) (hdrain : env.drainsEnd) (p r : Path) (sub : Dir)
    (hr : r ≠ []) (hp : p = g.instancesDir ++ r) (hdir : fs.lookup p = some (.dir sub)) :
    (calls (walkInstances env g fs).trace).filter (fun c => decide (c.2 = p)) =
        (match env.loadVMConfig p with
        | none => []
        | some cfg => [(if cfg.container = true then Terminator.docker else Terminator.qemu, p)]) ∧
      ∃ a steps c,
        (walkInstances env g fs).trace =
          a ++ Event.loadVMConfig p (env.loadVMConfig p).isSome :: steps ++ Event.enqueue p :: c ∧
        Event.enqueue p ∉ a ∧
        steps =
          (match env.loadVMConfig p with
          | none => []
          | some cfg =>
            if cfg.container = true then
              Event.call .docker p :: (dockerKillInstance env fs p).trace
            else Event.call .qemu p :: (qemuKillInstance env p).trace) := by
  have hmem := (mem_instanceDirs_iff g fs hwf p).2 ⟨r, sub, hr, hp, hdir⟩
  obtain ⟨a, c, hsplit, ha, hc⟩ := walk_split env g fs hwf hdrain p hmem
  have hfilter : ∀ t : Trace, (∀ e ∈ t, e.treated ≠ some p) →
      (calls t).filter (fun c => decide (c.2 = p)) = [] := by
    intro t ht
    rw [List.filter_eq_nil_iff]
    rintro ⟨k, q⟩ hkq
    simp only [decide_eq_true_eq]
    intro e
    subst e
    exact ht _ (mem_calls t k q hkq) rfl
  constructor
  · rw [hsplit, calls_append, calls_append, List.filter_append, List.filter_append,
      hfilter a ha, hfilter c hc, calls_visit]
    cases env.loadVMConfig p with
    | none => simp
    | some cfg => simp
  · refine ⟨a, _, c, ?_, fun h => ha _ h rfl, rfl⟩
    rw [hsplit, visit_eq]
    have hq := qemuKill_returns env p hdrain
    cases env.loadVMConfig p with
    | none => simp
    | some cfg => cases hcfg : cfg.container <;> simp [hq, hcfg]

theorem walk_dispatches_by_kind_witness :
    fs0.wf = true ∧ env0.drainsEnd ∧
      fs0.lookup ["instances", "ctr1"] =
        some (.dir (.file "docker-id" (some "abc123") .nil)) ∧
      env0.loadVMConfig ["instances", "ctr1"] = some ⟨true⟩ ∧
      (calls (walkInstances env0 g0 fs0).trace).filter
          (fun c => decide (c.2 = ["instances", "ctr1"])) =
        [(Terminator.docker, ["instances", "ctr1"])] :=
  have hdrain : env0.drainsEnd := fun _ _ h => Or.inl (Option.some.inj h ▸ rfl)
  ⟨by decide, hdrain, by decide, by decide,
    (walk_dispatches_by_kind env0 g0 fs0 (by decide) hdrain ["instances", "ctr1"] ["ctr1"]
      (.file "docker-id" (some "abc123") .nil) (by decide) rfl (by decide)).1⟩

/-- C7, as stated, fails: the directory `sub` inside the instance directory
`vm1` has its configuration looked for and is enqueued for removal, and it is
not immediately under the instance root. -/
theorem walk_treats_nested_directory :
    ¬ ∀ e p, e ∈ (purgeLauncherState env0 g0 fs0).trace → e.treated = some p →
        ∃ name, p = pathJoin g0.instancesDir name := by
  intro h
  obtain ⟨name, hname⟩ := h (.enqueue ["instances", "vm1", "sub"]) ["instances", "vm1", "sub"]
    (by decide) rfl
  simp [pathJoin, g0] at hname

/-- C7, amended (instances are the directories below the root): in a tree
without duplicate names, every path whose configuration the run loads, that it
hands to a terminator or that it enqueues for removal is a directory strictly
below the instance root, at any depth; the root itself and entries that are
not directories are never treated as instances. -/
theorem walk_treats_directories_below_root (env : Env) (g : Globals) (fs : Dir)
    (hwf : fs.wf = true) (e : Event) (p : Path)
    (he : e ∈ (purgeLauncherState env g fs).trace) (ht : e.treated = some p) :
    p ≠ g.instancesDir ∧
      ∃ r s, r ≠ [] ∧ p = g.instancesDir ++ r ∧ fs.lookup p = some (.dir s) := by
  have hmem := (mem_instanceDirs_iff g fs hwf p).1 (purge_treated env g fs e p he ht)
  refine ⟨?_, hmem⟩
  obtain ⟨r, s, hr, hp, _⟩ := hmem
  intro h
  rw [h] at hp
  exact hr (by simpa using hp)

theorem walk_treats_directories_below_root_witness :
    fs0.wf = true ∧
      Event.enqueue ["instances", "vm1", "sub"] ∈ (purgeLauncherState env0 g0 fs0).trace ∧
      (Event.enqueue ["instances", "vm1", "sub"]).treated = some ["instances", "vm1", "sub"] ∧
      ["instances", "vm1", "sub"] ≠ g0.instancesDir ∧
      ∃ r s, r ≠ [] ∧ ["instances", "vm1", "sub"] = g0.instancesDir ++ r ∧
        fs0.lookup ["instances", "vm1", "sub"] = some (.dir s) :=
  ⟨by decide, by decide, rfl,
    walk_treats_directories_below_root env0 g0 fs0 (by decide)
      (.enqueue ["instances", "vm1", "sub"]) ["instances", "vm1", "sub"] (by decide) rfl⟩

/-- C8 (non-directory entries ignored): in a tree without duplicate names, an
entry directly under the instance root that is not a directory has no
configuration loaded, is handed to no terminator and is not enqueued; when no
drain loop waits forever it is still there, unchanged, once the enqueued
directories are removed and the network is reset; and it is gone at the end of
the run when the removal of the instance root does not fail. -/
theorem stray_file_ignored (env : Env) (g : Globals) (fs : Dir) (name : String)
    (data : Option String) (hwf : fs.wf = true)
    (hfile : fs.lookup (pathJoin g.instancesDir name) = some (.file data)) :
    (∀ e ∈ (purgeLauncherState env g fs).trace,
        e.treated ≠ some (pathJoin g.instancesDir name)) ∧
      (env.drainsEnd →
        ∃ fs1 fs2, (shutdownInstances env g fs).out = .returned fs1 ∧
          fs1.lookup (pathJoin g.instancesDir name) = some (.file data) ∧
          (purgeLauncherState env g fs).out = .returned fs2 ∧
          (env.removable g.instancesDir →
            fs2.lookup (pathJoin g.instancesDir name) = none)) := by
  have hnot : pathJoin g.instancesDir name ∉ instanceDirs g fs := by
    intro h
    obtain ⟨r, s, _, _, hs⟩ := (mem_instanceDirs_iff g fs hwf _).1 h
    rw [hfile] at hs
    simp at hs
  constructor
  · exact fun e he ht => hnot (purge_treated env g fs e _ he ht)
  · intro hdrain
    obtain ⟨t, fs1, hrm, _, _, hkeep, _⟩ := removeInstances_spec env (instanceDirs g fs) fs
    obtain ⟨t1, fs1a, hrm1, h1⟩ := shutdownInstances_returns env g fs hdrain
    rw [hrm] at hrm1
    simp only [Run.mk.injEq, Outcome.returned.injEq] at hrm1
    obtain ⟨ht, hfs⟩ := hrm1
    subst ht hfs
    obtain ⟨ok1, ok2, ok3, fs2, h2, _, _, hinst, _⟩ := purgeFilesystem_spec env g fs1
    refine ⟨fs1, fs2, by rw [h1], ?_, ?_, ?_⟩
    · apply hkeep _ _ hfile
      intro p hp hpre
      obtain ⟨r, s, hr, hpr, hs⟩ := (mem_instanceDirs_iff g fs hwf p).1 hp
      subst hpr
      rw [pathJoin, List.prefix_append_right_inj] at hpre
      have hlen := hpre.length_le
      obtain ⟨t, ht⟩ := hpre
      cases r with
      | nil => exact hr rfl
      | cons x xs =>
        cases xs with
        | nil =>
          simp at ht
          rw [ht.1, ← pathJoin, hfile] at hs
          simp at hs
        | cons y ys => simp at hlen
    · simp [purgeLauncherState, bind_eq, Run.bind, h1, h2]
    · intro hok
      exact lookup_below_none fs2 g.instancesDir [name] (hinst hok)

theorem stray_file_ignored_witness :
    fs0.wf = true ∧
      fs0.lookup (pathJoin g0.instancesDir "README") = some (.file (some "notes")) ∧
      env0.drainsEnd ∧ env0.removable g0.instancesDir ∧
      (∀ e ∈ (purgeLauncherState env0 g0 fs0).trace,
        e.treated ≠ some (pathJoin g0.instancesDir "README")) ∧
      ∃ fs1 fs2, (shutdownInstances env0 g0 fs0).out = .returned fs1 ∧
        fs1.lookup (pathJoin g0.instancesDir "README") = some (.file (some "notes")) ∧
        (purgeLauncherState env0 g0 fs0).out = .returned fs2 ∧
        (env0.removable g0.instancesDir →
          fs2.lookup (pathJoin g0.instancesDir "README") = none) :=
  have hdrain : env0.drainsEnd := fun _ _ h => Or.inl (Option.some.inj h ▸ rfl)
  ⟨by decide, by decide, hdrain, ⟨by decide, rfl⟩,
    (stray_file_ignored env0 g0 fs0 "README" (some "notes") (by decide) (by decide)).1,
    (stray_file_ignored env0 g0 fs0 "README" (some "notes") (by decide) (by decide)).2 hdrain⟩

/-- C9 (network step sequencing): when no drain loop waits forever, the run
is, in this order: the load of the network state, phase 1, container-network
initialisation exactly when phase 1 succeeded, the walk (whatever the outcome
of the steps before it), one removal per enqueued directory, then
`shutdownDockerNetwork`, `resetDockerNetworking` and `ResetNetwork`, then the
final purge; no network step happens during the walk or the removals. -/
theorem network_step_sequencing (env : Env) (g : Globals) (fs : Dir) (hdrain : env.drainsEnd) :
    ∃ walkTrace toRemove removals purge fs1,
      walkInstances env g fs = ⟨walkTrace, .returned toRemove⟩ ∧
      List.Forall₂ (fun p e => ∃ ok, e = Event.removeAll p ok) toRemove removals ∧
      (∀ e ∈ walkTrace ++ removals, e.isNetwork = false) ∧
      (∀ e ∈ purge, e.isNetwork = false) ∧
      purgeLauncherState env g fs =
        ⟨[.netConfigLoad env.netConfigLoadOk, .initNetworkPhase1 env.initNetworkPhase1Ok] ++
          (if env.initNetworkPhase1Ok = true then
            [.initDockerNetworking env.initDockerNetworkingOk] else []) ++
          walkTrace ++ removals ++
          [.shutdownDockerNetwork, .resetDockerNetworking, .resetNetwork env.resetNetworkOk] ++
          purge, .returned fs1⟩ := by
  obtain ⟨t, fs1, hrm, h1⟩ := shutdownInstances_returns env g fs hdrain
  obtain ⟨t1, fs1a, hrm1, hall, _⟩ := removeInstances_spec env (instanceDirs g fs) fs
  rw [hrm] at hrm1
  simp only [Run.mk.injEq, Outcome.returned.injEq] at hrm1
  obtain ⟨ht, _⟩ := hrm1
  subst ht
  obtain ⟨ok1, ok2, ok3, fs2, h2, _⟩ := purgeFilesystem_spec env g fs1
  refine ⟨_, _, t, [.removeAll g.dataDir ok1, .removeAll g.instancesDir ok2,
    .removeAll g.lockPath ok3], fs2, walkInstances_returns env g fs hdrain, hall, ?_, ?_, ?_⟩
  · intro e he
    simp only [List.mem_append, List.mem_flatten, List.mem_map] at he
    rcases he with ⟨tr, ⟨q, _, rfl⟩, he⟩ | he
    · exact visit_not_network env fs q e he
    · exact removals_not_network _ _ hall e he
  · intro e he
    simp only [List.mem_cons, List.mem_singleton, List.not_mem_nil, or_false] at he
    rcases he with he | he | he <;> simp [he, Event.isNetwork]
  · simp [purgeLauncherState, bind_eq, Run.bind, h1, h2, initNetworking_eq, resetNetworking_eq,
      walkInstances_returns env g fs hdrain]

theorem network_step_sequencing_witness :
    envDegraded.drainsEnd ∧
      ∃ walkTrace toRemove removals purge fs1,
        walkInstances envDegraded g0 fs0 = ⟨walkTrace, .returned toRemove⟩ ∧
        List.Forall₂ (fun p e => ∃ ok, e = Event.removeAll p ok) toRemove removals ∧
        (∀ e ∈ walkTrace ++ removals, e.isNetwork = false) ∧
        (∀ e ∈ purge, e.isNetwork = false) ∧
        purgeLauncherState envDegraded g0 fs0 =
          ⟨[.netConfigLoad envDegraded.netConfigLoadOk,
              .initNetworkPhase1 envDegraded.initNetworkPhase1Ok] ++
            (if envDegraded.initNetworkPhase1Ok = true then
              [.initDockerNetworking envDegraded.initDockerNetworkingOk] else []) ++
            walkTrace ++ removals ++
            [.shutdownDockerNetwork, .resetDockerNetworking,
              .resetNetwork envDegraded.resetNetworkOk] ++
            purge, .returned fs1⟩ :=
  have hdrain : envDegraded.drainsEnd := fun _ _ h => nomatch h
  ⟨hdrain, network_step_sequencing envDegraded g0 fs0 hdrain⟩

/-- C10 (idempotence): on a node where the instance root, the data directory
and the lock file are all absent, the run returns without a panic, consists of
the network steps and three removals that report no error, invokes no
terminator, enqueues nothing and leaves the tree as it was; a second run right
after the first ends with the same tree. -/
theorem purge_empty_node (env : Env) (g : Globals) (fs : Dir)
    (hinst : fs.lookup g.instancesDir = none) (hdata : fs.lookup g.dataDir = none)
    (hlock : fs.lookup g.lockPath = none) :
    purgeLauncherState env g fs =
        ⟨[.netConfigLoad env.netConfigLoadOk, .initNetworkPhase1 env.initNetworkPhase1Ok] ++
          (if env.initNetworkPhase1Ok = true then
            [.initDockerNetworking env.initDockerNetworkingOk] else []) ++
          [.shutdownDockerNetwork, .resetDockerNetworking, .resetNetwork env.resetNetworkOk,
            .removeAll g.dataDir true, .removeAll g.instancesDir true,
            .removeAll g.lockPath true], .returned fs⟩ ∧
      ∀ env2, (Run.bind (purgeLauncherState env g fs) (purgeLauncherState env2 g)).out =
        .returned fs := by
  have key : ∀ env1 : Env, purgeLauncherState env1 g fs =
      ⟨[.netConfigLoad env1.netConfigLoadOk, .initNetworkPhase1 env1.initNetworkPhase1Ok] ++
        (if env1.initNetworkPhase1Ok = true then
          [.initDockerNetworking env1.initDockerNetworkingOk] else []) ++
        [.shutdownDockerNetwork, .resetDockerNetworking, .resetNetwork env1.resetNetworkOk,
          .removeAll g.dataDir true, .removeAll g.instancesDir true,
          .removeAll g.lockPath true], .returned fs⟩ := by
    intro env1
    have hdirs : instanceDirs g fs = [] := by simp [instanceDirs, hinst]
    have hwalk : walkInstances env1 g fs = ⟨[], .returned []⟩ := by
      rw [walkInstances_eq, hdirs]
      simp [visitAll, pure_eq, Run.bind]
    obtain ⟨ok1, ok2, ok3, fs2, h2, _, _, _, _, hsame⟩ := purgeFilesystem_spec env1 g fs
    obtain ⟨e1, e2, e3, e4⟩ := hsame hdata hinst hlock
    subst e1 e2 e3 e4
    simp [purgeLauncherState, shutdownInstances, bind_eq, pure_eq, Run.bind, hwalk,
      removeInstances, initNetworking_eq, resetNetworking_eq, h2]
  refine ⟨key env, ?_⟩
  intro env2
  rw [Run.bind_returned _ _ fs (by rw [key env]), key env2]

theorem purge_empty_node_witness :
    Dir.nil.lookup g0.instancesDir = none ∧ Dir.nil.lookup g0.dataDir = none ∧
      Dir.nil.lookup g0.lockPath = none ∧
      purgeLauncherState env0 g0 .nil =
        ⟨[.netConfigLoad true, .initNetworkPhase1 true, .initDockerNetworking true,
            .shutdownDockerNetwork, .resetDockerNetworking, .resetNetwork true,
            .removeAll ["data"] true, .removeAll ["instances"] true,
            .removeAll ["lock", "ciao-launcher.lock"] true], .returned .nil⟩ :=
  ⟨rfl, rfl, rfl, (purge_empty_node env0 g0 .nil rfl rfl rfl).1⟩

end Ciao
